import Mathlib

/-!
Shallow embedding of the enhanced-comment processing core of the `tbls`
fork (package `schema`): the `CommentData` record, the JSON/YAML/legacy
comment parsers, the parser registry with fallback, the comment validator
and sanitizer, and the `EnhancedCommentProcessor`.

Modelling conventions:
* Go strings are modelled as lists of Unicode code points (`Str := List Char`).
  Go's byte-level length checks use the UTF-8 byte count (`utf8Len`).
* Go maps (`map[string]string`, `map[string]interface{}`) are modelled as
  association lists; Go's unspecified map iteration order becomes the list
  order, which is noted wherever a definition iterates a map.
* Fallible Go functions returning `(T, error)` are modelled with
  `Except`/`Option`; error payloads keep the parser/field/reason structure
  of `CommentParseError`/`CommentValidationError` but elide the
  `fmt.Sprintf` message formatting, which no theorem depends on.
* External libraries used by the source (`encoding/json`, `gopkg.in/yaml.v3`,
  `regexp`, `fmt.Sprintf("%v")`, `unicode.IsPrint`) are not repository code;
  they are modelled as opaque function parameters collected in `GoLib`, or
  as fields holding the compiled matcher (for `regexp`).  Concrete theorems
  instantiate them with functions that agree with the real library on the
  inputs actually reached, as stated at each instantiation.
* The goroutine/timer deadline of `ProcessComment` is outside the embedding;
  `ProcessComment` here is the non-timeout path (the timeout claim is
  handled separately as untranslatable).
-/

namespace Tbls

/-- Strings are modelled as lists of Unicode code points (Go runes). -/
abbrev Str := List Char

/-- White space test used by Go's `strings.TrimSpace` and `unicode.IsSpace`:
true exactly on the Unicode White_Space code points. -/
def isGoSpace (c : Char) : Bool :=
  c.toNat = 9 ∨ c.toNat = 10 ∨ c.toNat = 11 ∨ c.toNat = 12 ∨ c.toNat = 13 ∨
  c.toNat = 32 ∨ c.toNat = 0x85 ∨ c.toNat = 0xA0 ∨ c.toNat = 0x1680 ∨
  (0x2000 ≤ c.toNat ∧ c.toNat ≤ 0x200A) ∨ c.toNat = 0x2028 ∨ c.toNat = 0x2029 ∨
  c.toNat = 0x202F ∨ c.toNat = 0x205F ∨ c.toNat = 0x3000

/-- Go `strings.TrimSpace`: remove leading and trailing white space. -/
def trimSpace (s : Str) : Str :=
  ((s.dropWhile isGoSpace).reverse.dropWhile isGoSpace).reverse

/-- Number of bytes of the UTF-8 encoding, Go's `len(string)`. -/
def utf8Len (s : Str) : Nat := (s.map Char.utf8Size).sum

/-- Database object kinds (`ObjectType` constants in `comment_data.go`). -/
inductive ObjectType
  | table | column | index | view | constraint | trigger | function | enum
deriving Repr, DecidableEq

/-- The Go string value of an `ObjectType` constant. -/
def ObjectType.str : ObjectType → Str
  | .table => "table".toList
  | .column => "column".toList
  | .index => "index".toList
  | .view => "view".toList
  | .constraint => "constraint".toList
  | .trigger => "trigger".toList
  | .function => "function".toList
  | .enum => "enum".toList

/-- Unified parsed comment record (`CommentData` in `comment_data.go`).
`Metadata` is an association list standing for the Go `map[string]string`. -/
structure CommentData where
  LogicalName : Str := []
  Description : Str := []
  Tags : List Str := []
  Metadata : List (Str × Str) := []
  Priority : Int := 0
  Deprecated : Bool := false
  Source : Str := []
deriving Repr, DecidableEq

/-- Map read `m[k]`: first binding of `k`, mirroring Go map lookup
(association lists built by `metaSet` have unique keys). -/
def lookupMeta (m : List (Str × Str)) (k : Str) : Option Str :=
  match m with
  | [] => none
  | (k', v) :: rest => if k' = k then some v else lookupMeta rest k

/-- Map write `m[k] = v`: replace the first binding of `k`, else append. -/
def metaSet (m : List (Str × Str)) (k : Str) (v : Str) : List (Str × Str) :=
  match m with
  | [] => [(k, v)]
  | (k', v') :: rest => if k' = k then (k, v) :: rest else (k', v') :: metaSet rest k v

/-- CommentData.IsEmpty (nil receiver aside: records here are never nil). -/
def CommentData.IsEmpty (cd : CommentData) : Prop :=
  cd.LogicalName = [] ∧ cd.Description = [] ∧ cd.Tags = [] ∧ cd.Metadata = []

instance (cd : CommentData) : Decidable cd.IsEmpty := by
  unfold CommentData.IsEmpty; infer_instance

/-- CommentData.Merge (`comment_data.go`): `cd` wins; empty scalar fields are
filled from `other`; tags are appended with duplicates (w.r.t. the tags
already present) skipped; metadata keys absent from `cd` are added.
`Clone` is the identity on this immutable model.  The Go loop's `tagSet`
map is represented by membership in the accumulated tag list, which holds
exactly the tags inserted into the set. -/
def mergeTagsGo (tags : List Str) : List Str → List Str
  | [] => tags
  | t :: rest => if t ∈ tags then mergeTagsGo tags rest else mergeTagsGo (tags ++ [t]) rest

/-- Metadata part of `Merge`: add each binding of `other` whose key is not
yet present (Go iterates the `other` map; list order stands for that). -/
def mergeMetaGo (m : List (Str × Str)) : List (Str × Str) → List (Str × Str)
  | [] => m
  | (k, v) :: rest =>
    if (lookupMeta m k).isSome then mergeMetaGo m rest
    else mergeMetaGo (m ++ [(k, v)]) rest

/-- CommentData.Merge itself. -/
def CommentData.Merge (cd other : CommentData) : CommentData :=
  { LogicalName := if cd.LogicalName = [] ∧ other.LogicalName ≠ [] then other.LogicalName else cd.LogicalName
    Description := if cd.Description = [] ∧ other.Description ≠ [] then other.Description else cd.Description
    Tags := if other.Tags ≠ [] then mergeTagsGo cd.Tags other.Tags else cd.Tags
    Metadata := if other.Metadata ≠ [] then mergeMetaGo cd.Metadata other.Metadata else cd.Metadata
    Priority := cd.Priority
    Deprecated := cd.Deprecated
    Source := cd.Source }

deriving instance DecidableEq for Except

/-- Comment parse error (`CommentParseError` in `comment_parser.go`);
the wrapped `Cause` and message formatting are elided. -/
structure ParseErr where
  ParserName : Str
  Comment : Str
  Reason : Str
deriving Repr, DecidableEq

/-- Errors produced by `DefaultParserRegistry.ParseWithFallback`:
either the `fmt.Errorf("all parsers failed ...: %w", lastError)` wrap or the
`CommentParseError("registry", comment, "no suitable parser found",
ErrUnsupportedFormat)` case. -/
inductive RegistryErr
  | allParsersFailed (last : ParseErr)
  | unsupportedFormat (comment : Str)
deriving Repr, DecidableEq

/-- A registered comment parser, i.e. one element of the `CommentParser`
interface: name, priority and the two methods. -/
structure CommentParser where
  name : Str
  priority : Int
  CanParse : Str → Bool
  ParseComment : Str → Str → Except ParseErr CommentData

/-! ## LegacyParser (`legacy_parser.go`) -/

/-- Body of `LegacyParser.normalizeWhitespace`: collapse runs of white space
(per `unicode.IsSpace`) to single ASCII spaces; the flag is `prevIsSpace`. -/
def normalizeWsAux : Str → Bool → Str
  | [], _ => []
  | c :: rest, prev =>
    if isGoSpace c then
      if prev then normalizeWsAux rest true else ' ' :: normalizeWsAux rest true
    else c :: normalizeWsAux rest false

/-- LegacyParser.normalizeWhitespace: collapse runs, then trim. -/
def normalizeWhitespace (s : Str) : Str := trimSpace (normalizeWsAux s false)

/-- LegacyParser.normalizeComment: trim, then normalize white space. -/
def normalizeComment (s : Str) : Str := normalizeWhitespace (trimSpace s)

/-- Loop of `LegacyParser.splitWithEscape` for a non-empty delimiter
`d0 :: ds`; `cur` is the current field being built.  A backslash escapes the
following character exactly when the delimiter starts right after it.
Go iterates bytes; for the delimiters reachable here (valid UTF-8 strings)
the rune-level iteration splits at the same boundaries.
The `fuel` argument only bounds the recursion so that it is structural;
every step consumes at least one input character, so with `fuel = s.length`
the exhaustion branch is unreachable. -/
def splitGo (d0 : Char) (ds : Str) : Nat → Str → Str → List Str
  | _, [], cur => [cur]
  | 0, s, cur => [cur ++ s]
  | fuel + 1, c :: rest, cur =>
    if c = '\\' ∧ (d0 :: ds).isPrefixOf rest then
      splitGo d0 ds fuel rest.tail (cur ++ rest.take 1)
    else if (d0 :: ds).isPrefixOf (c :: rest) then
      cur :: splitGo d0 ds fuel (rest.drop ds.length) []
    else splitGo d0 ds fuel rest (cur ++ [c])

/-- LegacyParser.splitWithEscape. -/
def splitWithEscape (s : Str) (delimiter : Str) : List Str :=
  if delimiter = [] ∨ s = [] then [s]
  else match delimiter with
    | [] => [s]
    | d0 :: ds => splitGo d0 ds s.length s []

/-- LegacyParser.ParseComment: split the normalized comment on the delimiter
(default `|`); first part is the logical name, second the description,
both trimmed; `Source` is the original comment.  It never returns an error. -/
def legacyParseComment (comment delimiter : Str) : Except ParseErr CommentData :=
  if comment = [] then .ok { Source := comment }
  else
    let delimiter := if delimiter = [] then ['|'] else delimiter
    let parts := splitWithEscape (normalizeComment comment) delimiter
    .ok { Source := comment
          LogicalName := match parts with | p :: _ => trimSpace p | [] => []
          Description := match parts with | _ :: p :: _ => trimSpace p | _ => [] }

/-- NewLegacyParser with `SetPriority` applied (the default priority is
1000); `CanParse` is constantly true. -/
def legacyParser (priority : Int) : CommentParser :=
  { name := "legacy".toList
    priority := priority
    CanParse := fun _ => true
    ParseComment := legacyParseComment }

/-! ## ParserRegistry (`comment_parser.go`) -/

/-- DefaultParserRegistry.RegisterParser: insert before the first parser of
strictly greater priority, else append (stable for equal priorities). -/
def RegisterParser (parsers : List CommentParser) (p : CommentParser) : List CommentParser :=
  match parsers with
  | [] => [p]
  | q :: rest => if p.priority < q.priority then p :: q :: rest else q :: RegisterParser rest p

/-- Loop of `ParseWithFallback`: try each parser whose `CanParse` accepts;
return the first success with `Source` overwritten by the input; remember
the last error.  (The Go guard `err == nil && result != nil` collapses to
the `Except` success case: every parser in this repository returns a
non-nil record exactly when it returns a nil error.) -/
def parseLoop (comment delimiter : Str) :
    List CommentParser → Option ParseErr → Except RegistryErr CommentData
  | [], none => .error (.unsupportedFormat comment)
  | [], some e => .error (.allParsersFailed e)
  | p :: rest, lastError =>
    if p.CanParse comment then
      match p.ParseComment comment delimiter with
      | .ok r => .ok { r with Source := comment }
      | .error e => parseLoop comment delimiter rest (some e)
    else parseLoop comment delimiter rest lastError

/-- DefaultParserRegistry.ParseWithFallback. -/
def ParseWithFallback (parsers : List CommentParser) (comment delimiter : Str) :
    Except RegistryErr CommentData :=
  if comment = [] then .ok { Source := comment }
  else parseLoop comment delimiter parsers none

/-! ## JSONParser (`json_parser.go`) -/

/-- Result of `encoding/json.Unmarshal` into `interface{}`: strings,
numbers (all decoded as `float64`, modelled by their exact rational value),
booleans, null, arrays and string-keyed objects (association list standing
for the Go map). -/
inductive JValue
  | str (s : Str)
  | num (q : Rat)
  | bool (b : Bool)
  | null
  | arr (xs : List JValue)
  | obj (kvs : List (Str × JValue))

/-- Go numeric conversion `int(f)`: truncation toward zero. -/
def ratTruncGo (q : Rat) : Int := Int.tdiv q.num (q.den : Int)

/-- Lookup in an unmarshalled JSON object (`data[key]`). -/
def jLookup (data : List (Str × JValue)) (k : Str) : Option JValue :=
  match data with
  | [] => none
  | (k', v) :: rest => if k' = k then some v else jLookup rest k

mutual
/-- JSONParser.getDepth / YAMLParser-style structural depth. -/
def jDepth : JValue → Nat
  | .obj kvs => jDepthKVs kvs + 1
  | .arr xs => jDepthArr xs + 1
  | _ => 1
/-- Depth of the values of an object (the Go loop's running maximum). -/
def jDepthKVs : List (Str × JValue) → Nat
  | [] => 0
  | (_, v) :: rest => max (jDepth v) (jDepthKVs rest)
/-- Depth of the elements of an array. -/
def jDepthArr : List JValue → Nat
  | [] => 0
  | v :: rest => max (jDepth v) (jDepthArr rest)
end

/-- First key of `keys` bound in `data` to a non-empty string (the Go
loops extracting the logical name and the description: a key bound to a
non-string or empty-string value does not stop the search). -/
def jFirstString (data : List (Str × JValue)) : List Str → Option Str
  | [] => none
  | k :: rest =>
    match jLookup data k with
    | some (.str s) => if s ≠ [] then some s else jFirstString data rest
    | _ => jFirstString data rest

/-- JSONParser.convertToStringSlice; `fm` stands for `fmt.Sprintf("%v")`.
The `[]string` case of the Go type switch is unreachable from `Unmarshal`
into `interface{}` and is omitted. -/
def jToStringSlice (fm : JValue → Str) : JValue → Option (List Str)
  | .arr xs => some (xs.map fun item => match item with | .str s => s | v => fm v)
  | .str s => some [s]
  | _ => none

/-- Keys consumed by the named fields of `JSONParser.convertMapToCommentData`. -/
def jExcludeKeys : List Str :=
  ["name", "logical_name", "logicalName", "title", "label",
   "description", "desc", "comment", "note", "summary",
   "tags", "priority", "deprecated"].map String.toList

/-- JSONParser.convertMapToCommentData.  Metadata is built by iterating the
object (Go map iteration order becomes the association-list order). -/
def jConvertMap (fm : JValue → Str) (data : List (Str × JValue)) : CommentData :=
  { LogicalName := (jFirstString data (["name", "logical_name", "logicalName", "title", "label"].map String.toList)).getD []
    Description := (jFirstString data (["description", "desc", "comment", "note", "summary"].map String.toList)).getD []
    Tags := match jLookup data "tags".toList with
      | some v => (jToStringSlice fm v).getD []
      | none => []
    Priority := match jLookup data "priority".toList with
      | some (.num q) => ratTruncGo q
      | _ => 0
    Deprecated := match jLookup data "deprecated".toList with
      | some (.bool b) => b
      | _ => false
    Metadata := data.foldl (fun acc kv =>
      if kv.1 ∈ jExcludeKeys then acc
      else metaSet acc kv.1 (match kv.2 with | .str s => s | v => fm v)) [] }

/-- JSONParser.convertToCommentData: object, or first element of an array
when it is an object, else an empty record.  It never returns an error. -/
def jConvert (fm : JValue → Str) : JValue → CommentData
  | .obj kvs => jConvertMap fm kvs
  | .arr (first :: _) =>
    match first with
    | .obj kvs => jConvertMap fm kvs
    | _ => {}
  | .arr [] => {}
  | _ => {}

/-- JSONParser state (`json_parser.go`): limits plus the two external
functions it calls, `encoding/json.Unmarshal` (`unmarshal`: `none` stands
for a decode error) and `fmt.Sprintf("%v")` (`fm`). -/
structure JSONParser where
  name : Str := "json".toList
  priority : Int := 10
  maxDepth : Nat := 5
  maxSize : Nat := 8192
  unmarshal : Str → Option JValue
  fm : JValue → Str

/-- First/last-character brace test of `JSONParser.CanParse`. -/
def hasValidBraces (c : Str) : Bool :=
  (c.head? = some '{' ∧ c.getLast? = some '}') ∨
  (c.head? = some '[' ∧ c.getLast? = some ']')

/-- JSONParser.CanParse. -/
def JSONParser.CanParseF (p : JSONParser) (comment : Str) : Bool :=
  if comment = [] then false
  else if utf8Len comment > p.maxSize then false
  else
    let c := trimSpace comment
    if c.length < 2 then false
    else if ¬ hasValidBraces c then false
    else (p.unmarshal c).isSome

/-- JSONParser.ParseComment: trim, size check, `CanParse` check, decode,
depth check, convert; `Source` is set to the trimmed comment. -/
def JSONParser.ParseCommentF (p : JSONParser) (comment _delimiter : Str) :
    Except ParseErr CommentData :=
  if comment = [] then .ok { Source := comment }
  else
    let c := trimSpace comment
    if utf8Len c > p.maxSize then .error ⟨p.name, c, "comment too large".toList⟩
    else if ¬ p.CanParseF c then .error ⟨p.name, c, "not a valid JSON format".toList⟩
    else match p.unmarshal c with
      | none => .error ⟨p.name, c, "JSON unmarshal failed".toList⟩
      | some raw =>
        if jDepth raw > p.maxDepth then .error ⟨p.name, c, "JSON structure too deep".toList⟩
        else .ok { jConvert p.fm raw with Source := c }

/-- A JSONParser as a registry entry, with `SetPriority` applied. -/
def jsonParserAt (priority : Int) (unmarshal : Str → Option JValue) (fm : JValue → Str) :
    CommentParser :=
  let p : JSONParser := { unmarshal := unmarshal, fm := fm, priority := priority }
  { name := p.name, priority := p.priority
    CanParse := p.CanParseF, ParseComment := p.ParseCommentF }

/-! ## YAMLParser (`yaml_parser.go`) -/

/-- Result of `gopkg.in/yaml.v3` `Unmarshal` into `interface{}`: strings,
ints, floats (`float64`, modelled by its exact rational value), booleans,
null, sequences and string-keyed mappings; `other` stands for any further
Go type the library can produce (timestamps etc.), which every type switch
of the parser sends to its default branch. -/
inductive YValue
  | str (s : Str)
  | int (n : Int)
  | float (q : Rat)
  | bool (b : Bool)
  | null
  | arr (xs : List YValue)
  | map (kvs : List (Str × YValue))
  | other

/-- Lookup in an unmarshalled YAML mapping (`data[key]`). -/
def yLookup (data : List (Str × YValue)) (k : Str) : Option YValue :=
  match data with
  | [] => none
  | (k', v) :: rest => if k' = k then some v else yLookup rest k

mutual
/-- YAMLParser.getDepth. -/
def yDepth : YValue → Nat
  | .map kvs => yDepthKVs kvs + 1
  | .arr xs => yDepthArr xs + 1
  | _ => 1
/-- Depth of the values of a mapping. -/
def yDepthKVs : List (Str × YValue) → Nat
  | [] => 0
  | (_, v) :: rest => max (yDepth v) (yDepthKVs rest)
/-- Depth of the elements of a sequence. -/
def yDepthArr : List YValue → Nat
  | [] => 0
  | v :: rest => max (yDepth v) (yDepthArr rest)
end

/-- Split a string at every occurrence of the character `sep`
(Go `strings.Split` with a one-character separator). -/
def splitOnChar (sep : Char) : Str → List Str
  | [] => [[]]
  | c :: rest =>
    if c = sep then [] :: splitOnChar sep rest
    else match splitOnChar sep rest with
      | l :: ls => (c :: l) :: ls
      | [] => [[c]]

/-- Value of a non-empty run of decimal digits. -/
def digitsVal (ds : Str) : Nat := ds.foldl (fun a c => a * 10 + (c.toNat - 48)) 0

/-- Go `fmt.Sscanf(s, "%d", &result)` with `result : int`: an optional sign
followed by at least one decimal digit; trailing non-digit input is left
unconsumed and is not an error; a value outside the 64-bit range is an
error. -/
def sscanfInt (s : Str) : Option Int :=
  let signed : Bool × Str := match s with
    | '-' :: r => (true, r)
    | '+' :: r => (false, r)
    | r => (false, r)
  let ds := signed.2.takeWhile Char.isDigit
  if ds = [] then none
  else
    let v : Int := if signed.1 then -(digitsVal ds : Int) else (digitsVal ds : Int)
    if v < -(2 ^ 63) ∨ 2 ^ 63 ≤ v then none else some v

/-- parseIntFromString (`yaml_parser.go`): trim, reject the empty string and
any string containing a decimal point, then scan with `%d`. -/
def parseIntFromString (s : Str) : Option Int :=
  let s := trimSpace s
  if s = [] then none
  else if '.' ∈ s then none
  else sscanfInt s

/-- First key of `keys` bound in `data` to a non-empty string. -/
def yFirstString (data : List (Str × YValue)) : List Str → Option Str
  | [] => none
  | k :: rest =>
    match yLookup data k with
    | some (.str s) => if s ≠ [] then some s else yFirstString data rest
    | _ => yFirstString data rest

/-- YAMLParser.convertToStringSlice: a sequence maps each element (strings
kept, anything else formatted with `fm`); a string containing a comma is
split on commas with each part trimmed, any other string is a one-element
slice.  The `[]string` case is unreachable from `Unmarshal` and omitted. -/
def yToStringSlice (fm : YValue → Str) : YValue → Option (List Str)
  | .arr xs => some (xs.map fun item => match item with | .str s => s | v => fm v)
  | .str s =>
    if ',' ∈ s then some ((splitOnChar ',' s).map trimSpace)
    else some [s]
  | _ => none

/-- Keys consumed by the named fields of `YAMLParser.convertMapToCommentData`. -/
def yExcludeKeys : List Str :=
  ["name", "logical_name", "logicalName", "title", "label", "display_name",
   "description", "desc", "comment", "note", "summary", "details",
   "tags", "priority", "deprecated"].map String.toList

/-- ASCII lowering standing for Go `strings.ToLower` (the strings compared
against, `true`/`yes`/`1`, are ASCII). -/
def toLowerGo (s : Str) : Str := s.map Char.toLower

/-- Priority extraction switch of `YAMLParser.convertMapToCommentData`:
an int is taken as is, a float is truncated by Go's `int(v)` conversion,
a string goes through `parseIntFromString` and is ignored on error;
any other type leaves the priority at 0. -/
def yPriorityOf (v : YValue) : Int :=
  match v with
  | .int n => n
  | .float q => ratTruncGo q
  | .str s => (parseIntFromString s).getD 0
  | _ => 0

/-- YAMLParser.convertMapToCommentData (Go map iteration order becomes the
association-list order, as for the JSON parser). -/
def yConvertMap (fm : YValue → Str) (data : List (Str × YValue)) : CommentData :=
  { LogicalName := (yFirstString data (["name", "logical_name", "logicalName", "title", "label", "display_name"].map String.toList)).getD []
    Description := (yFirstString data (["description", "desc", "comment", "note", "summary", "details"].map String.toList)).getD []
    Tags := match yLookup data "tags".toList with
      | some v => (yToStringSlice fm v).getD []
      | none => []
    Priority := match yLookup data "priority".toList with
      | some v => yPriorityOf v
      | none => 0
    Deprecated := match yLookup data "deprecated".toList with
      | some (.bool b) => b
      | some (.str s) => toLowerGo s = "true".toList ∨ s = ['1'] ∨ toLowerGo s = "yes".toList
      | _ => false
    Metadata := data.foldl (fun acc kv =>
      if kv.1 ∈ yExcludeKeys then acc
      else metaSet acc kv.1 (match kv.2 with | .str s => s | v => fm v)) [] }

/-- YAMLParser.convertToCommentData: mapping, first element of a sequence
when it is a mapping, a bare string becomes the description, else empty. -/
def yConvert (fm : YValue → Str) : YValue → CommentData
  | .map kvs => yConvertMap fm kvs
  | .arr (first :: _) =>
    match first with
    | .map kvs => yConvertMap fm kvs
    | _ => {}
  | .arr [] => {}
  | .str s => { Description := s }
  | _ => {}

/-- The six `regexp` patterns of `looksLikeYAML`, as written in the source. -/
def yamlPatterns : List Str :=
  ["^\\s*\\w+\\s*:\\s*.+",
   "^\\s*-\\s+\\w+\\s*:\\s*.+",
   "^\\s*\\w+\\s*:\\s*$",
   "^\\s*-\\s+.*",
   "^\\s*\\|\\s*$",
   "^\\s*>\\s*$"].map String.toList

/-- YAMLParser.looksLikeYAML; `rm pat line` stands for
`regexp.MatchString(pat, line)` of the Go standard library. -/
def looksLikeYAML (rm : Str → Str → Bool) (comment : Str) : Bool :=
  (splitOnChar '\n' comment).any fun line =>
    let line := trimSpace line
    if line = [] ∨ line.head? = some '#' then false
    else yamlPatterns.any fun pat => rm pat line

/-- YAMLParser state (`yaml_parser.go`): limits plus the external functions
it calls: `yaml.Unmarshal` (`none` stands for a decode error),
`fmt.Sprintf("%v")` and `regexp.MatchString`. -/
structure YAMLParser where
  name : Str := "yaml".toList
  priority : Int := 15
  maxDepth : Nat := 5
  maxSize : Nat := 8192
  unmarshal : Str → Option YValue
  fm : YValue → Str
  rm : Str → Str → Bool

/-- YAMLParser.CanParse. -/
def YAMLParser.CanParseF (p : YAMLParser) (comment : Str) : Bool :=
  if comment = [] then false
  else if utf8Len comment > p.maxSize then false
  else
    let c := trimSpace comment
    if c = [] then false
    else if looksLikeYAML p.rm c then (p.unmarshal c).isSome
    else false

/-- YAMLParser.ParseComment: trim, size check, `CanParse` check, decode,
depth check, convert; `Source` is set to the trimmed comment. -/
def YAMLParser.ParseCommentF (p : YAMLParser) (comment _delimiter : Str) :
    Except ParseErr CommentData :=
  if comment = [] then .ok { Source := comment }
  else
    let c := trimSpace comment
    if utf8Len c > p.maxSize then .error ⟨p.name, c, "comment too large".toList⟩
    else if ¬ p.CanParseF c then .error ⟨p.name, c, "not a valid YAML format".toList⟩
    else match p.unmarshal c with
      | none => .error ⟨p.name, c, "YAML unmarshal failed".toList⟩
      | some raw =>
        if yDepth raw > p.maxDepth then .error ⟨p.name, c, "YAML structure too deep".toList⟩
        else .ok { yConvert p.fm raw with Source := c }

/-- A YAMLParser as a registry entry, with `SetPriority` applied. -/
def yamlParserAt (priority : Int) (unmarshal : Str → Option YValue)
    (fm : YValue → Str) (rm : Str → Str → Bool) : CommentParser :=
  let p : YAMLParser := { unmarshal := unmarshal, fm := fm, rm := rm, priority := priority }
  { name := p.name, priority := p.priority
    CanParse := p.CanParseF, ParseComment := p.ParseCommentF }

/-! ## Validator (`comment_validator.go`) -/

/-- Comment validation error (`CommentValidationError`); the wrapped cause
and `fmt.Sprintf` message formatting are elided. -/
structure ValidationErr where
  Field : Str
  Value : Str
  Reason : Str
deriving Repr, DecidableEq

/-- ValidationConfig.  Lengths are rune counts (`utf8.RuneCountInString`). -/
structure ValidationConfig where
  MaxLogicalNameLength : Nat
  MaxDescriptionLength : Nat
  MaxTagCount : Nat
  MaxTagLength : Nat
  MaxMetadataCount : Nat
  MaxMetadataKeyLength : Nat
  MaxMetadataValueLength : Nat
  AllowedCharPattern : Str
  ForbiddenWords : List Str
  EnableHTMLEscape : Bool
  EnableSQLInjectionCheck : Bool

/-- DefaultValidationConfig. -/
def DefaultValidationConfig : ValidationConfig :=
  { MaxLogicalNameLength := 100
    MaxDescriptionLength := 1000
    MaxTagCount := 20
    MaxTagLength := 50
    MaxMetadataCount := 50
    MaxMetadataKeyLength := 100
    MaxMetadataValueLength := 500
    AllowedCharPattern := "^[\\p\x7bL\x7d\\p\x7bN\x7d\\p\x7bP\x7d\\p\x7bS\x7d\\p\x7bZs\x7d]+$".toList
    ForbiddenWords := ["DROP", "DELETE", "INSERT", "UPDATE", "EXEC", "SCRIPT"].map String.toList
    EnableHTMLEscape := true
    EnableSQLInjectionCheck := true }

/-- StrictValidationConfig. -/
def StrictValidationConfig : ValidationConfig :=
  { MaxLogicalNameLength := 50
    MaxDescriptionLength := 500
    MaxTagCount := 10
    MaxTagLength := 30
    MaxMetadataCount := 20
    MaxMetadataKeyLength := 50
    MaxMetadataValueLength := 200
    AllowedCharPattern := "^[\\p\x7bL\x7d\\p\x7bN\x7d\\p\x7bZs\x7d\\-_.,()[\\]\x7b\x7d:;\x27\x22!?]+$".toList
    ForbiddenWords := ["DROP", "DELETE", "INSERT", "UPDATE", "EXEC", "SCRIPT",
                       "UNION", "SELECT", "FROM", "WHERE"].map String.toList
    EnableHTMLEscape := true
    EnableSQLInjectionCheck := true }

/-- PermissiveValidationConfig. -/
def PermissiveValidationConfig : ValidationConfig :=
  { MaxLogicalNameLength := 200
    MaxDescriptionLength := 2000
    MaxTagCount := 50
    MaxTagLength := 100
    MaxMetadataCount := 100
    MaxMetadataKeyLength := 200
    MaxMetadataValueLength := 1000
    AllowedCharPattern := []
    ForbiddenWords := []
    EnableHTMLEscape := false
    EnableSQLInjectionCheck := false }

/-- DefaultCommentValidator: the configuration, the two compiled `regexp`
matchers (`none` when not compiled, i.e. an empty pattern or a disabled
SQL check), and `unicode.IsPrint` of the Go standard library, carried here
as an opaque function used by `removeControlChars`. -/
structure DefaultCommentValidator where
  config : ValidationConfig
  allowedCharRegex : Option (Str → Bool)
  sqlInjectionRegex : Option (Str → Bool)
  isPrint : Char → Bool

/-- NewDefaultCommentValidatorWithConfig: compile the two matchers exactly
when the pattern is non-empty resp. the SQL check enabled; `rm` stands for
the `regexp` compiler applied to the corresponding source pattern. -/
def NewDefaultCommentValidatorWithConfig (config : ValidationConfig)
    (charMatch sqlMatch : Str → Bool) (isPrint : Char → Bool) :
    DefaultCommentValidator :=
  { config := config
    allowedCharRegex := if config.AllowedCharPattern ≠ [] then some charMatch else none
    sqlInjectionRegex := if config.EnableSQLInjectionCheck then some sqlMatch else none
    isPrint := isPrint }

/-- validateCharPattern. -/
def validateCharPattern (v : DefaultCommentValidator) (text field : Str) :
    Option ValidationErr :=
  match v.allowedCharRegex with
  | none => none
  | some re =>
    if text = [] then none
    else if re text then none
    else some ⟨field, text, "contains invalid characters".toList⟩

/-- Substring containment, Go `strings.Contains(hay, needle)`. -/
def containsSub (needle hay : Str) : Bool := hay.tails.any needle.isPrefixOf

/-- ASCII upper-casing standing for Go `strings.ToUpper` (the forbidden
words of every configuration in the source are ASCII). -/
def toUpperGo (s : Str) : Str := s.map Char.toUpper

/-- validateForbiddenWords: case-insensitive substring search. -/
def validateForbiddenWords (v : DefaultCommentValidator) (text field : Str) :
    Option ValidationErr :=
  if v.config.ForbiddenWords = [] ∨ text = [] then none
  else
    match v.config.ForbiddenWords.find? (fun w => containsSub (toUpperGo w) (toUpperGo text)) with
    | some _ => some ⟨field, text, "contains forbidden word".toList⟩
    | none => none

/-- validateSQLInjection. -/
def validateSQLInjection (v : DefaultCommentValidator) (text field : Str) :
    Option ValidationErr :=
  if ¬ v.config.EnableSQLInjectionCheck then none
  else match v.sqlInjectionRegex with
    | none => none
    | some re =>
      if text = [] then none
      else if re text then some ⟨field, text, "potentially contains SQL injection patterns".toList⟩
      else none

/-- validateLogicalName. -/
def validateLogicalName (v : DefaultCommentValidator) (logicalName : Str) :
    Option ValidationErr :=
  if logicalName = [] then none
  else if logicalName.length > v.config.MaxLogicalNameLength then
    some ⟨"logical_name".toList, logicalName, "logical name too long".toList⟩
  else
    (validateCharPattern v logicalName "logical_name".toList).orElse fun _ =>
    (validateForbiddenWords v logicalName "logical_name".toList).orElse fun _ =>
    validateSQLInjection v logicalName "logical_name".toList

/-- validateDescription. -/
def validateDescription (v : DefaultCommentValidator) (description : Str) :
    Option ValidationErr :=
  if description = [] then none
  else if description.length > v.config.MaxDescriptionLength then
    some ⟨"description".toList, description, "description too long".toList⟩
  else
    (validateCharPattern v description "description".toList).orElse fun _ =>
    (validateForbiddenWords v description "description".toList).orElse fun _ =>
    validateSQLInjection v description "description".toList

/-- Per-tag checks of the `validateTags` loop (the `tags[i]` field label
drops the index formatting). -/
def validateOneTag (v : DefaultCommentValidator) (tag : Str) : Option ValidationErr :=
  if tag = [] then some ⟨"tags".toList, tag, "empty tag".toList⟩
  else if tag.length > v.config.MaxTagLength then
    some ⟨"tags".toList, tag, "tag too long".toList⟩
  else
    (validateCharPattern v tag "tags".toList).orElse fun _ =>
    (validateForbiddenWords v tag "tags".toList).orElse fun _ =>
    validateSQLInjection v tag "tags".toList

/-- validateTags. -/
def validateTags (v : DefaultCommentValidator) (tags : List Str) : Option ValidationErr :=
  if tags = [] then none
  else if tags.length > v.config.MaxTagCount then
    some ⟨"tags".toList, [], "too many tags".toList⟩
  else tags.findSome? (validateOneTag v)

/-- Per-entry checks of the `validateMetadata` loop, in source order:
empty key, key length, value length, key pattern, value pattern, key
forbidden word, value forbidden word, key SQL, value SQL. -/
def validateOneMeta (v : DefaultCommentValidator) (kv : Str × Str) : Option ValidationErr :=
  if kv.1 = [] then some ⟨"metadata".toList, kv.1, "empty metadata key".toList⟩
  else if kv.1.length > v.config.MaxMetadataKeyLength then
    some ⟨"metadata".toList, kv.1, "metadata key too long".toList⟩
  else if kv.2.length > v.config.MaxMetadataValueLength then
    some ⟨"metadata".toList, kv.2, "metadata value too long".toList⟩
  else
    (validateCharPattern v kv.1 "metadata.key".toList).orElse fun _ =>
    (validateCharPattern v kv.2 "metadata.value".toList).orElse fun _ =>
    (validateForbiddenWords v kv.1 "metadata.key".toList).orElse fun _ =>
    (validateForbiddenWords v kv.2 "metadata.value".toList).orElse fun _ =>
    (validateSQLInjection v kv.1 "metadata.key".toList).orElse fun _ =>
    validateSQLInjection v kv.2 "metadata.value".toList

/-- validateMetadata (the Go map iteration order becomes the
association-list order; which entry reports first is unspecified in Go). -/
def validateMetadata (v : DefaultCommentValidator) (metadata : List (Str × Str)) :
    Option ValidationErr :=
  if metadata = [] then none
  else if metadata.length > v.config.MaxMetadataCount then
    some ⟨"metadata".toList, [], "too many metadata entries".toList⟩
  else metadata.findSome? (validateOneMeta v)

/-- DefaultCommentValidator.Validate (the nil-data case cannot arise here). -/
def Validate (v : DefaultCommentValidator) (data : CommentData) : Option ValidationErr :=
  (validateLogicalName v data.LogicalName).orElse fun _ =>
  (validateDescription v data.Description).orElse fun _ =>
  (validateTags v data.Tags).orElse fun _ =>
  validateMetadata v data.Metadata

/-- Character class of the Go `regexp` escape `\\s`: `[\\t\\n\\f\\r ]`. -/
def reWs (c : Char) : Bool :=
  c = ' ' ∨ c = '\t' ∨ c = '\n' ∨ c.toNat = 12 ∨ c.toNat = 13

/-- Replacement `regexp.MustCompile("\\s+").ReplaceAllString(text, " ")`:
every maximal run of `reWs` characters becomes one ASCII space; the flag
records whether the previous character was part of a run. -/
def collapseWsAux : Str → Bool → Str
  | [], _ => []
  | c :: rest, prev =>
    if reWs c then
      if prev then collapseWsAux rest true else ' ' :: collapseWsAux rest true
    else c :: collapseWsAux rest false

/-- Whitespace-run collapsing entry point. -/
def collapseWs (s : Str) : Str := collapseWsAux s false

/-- removeControlChars: keep printable characters (per `unicode.IsPrint`,
abstract in the validator) plus tab, newline, carriage return. -/
def removeControlChars (v : DefaultCommentValidator) (text : Str) : Str :=
  text.filter fun c => v.isPrint c ∨ c = '\t' ∨ c = '\n' ∨ c = '\r'

/-- One character of Go `html.EscapeString`. -/
def htmlEscapeChar (c : Char) : Str :=
  if c = '&' then "&amp;".toList
  else if c = Char.ofNat 39 then "&#39;".toList
  else if c = '<' then "&lt;".toList
  else if c = '>' then "&gt;".toList
  else if c = Char.ofNat 34 then "&#34;".toList
  else [c]

/-- Go `html.EscapeString`. -/
def htmlEscape : Str → Str
  | [] => []
  | c :: rest => htmlEscapeChar c ++ htmlEscape rest

/-- sanitizeString: trim, strip control characters, HTML-escape when
enabled, collapse white-space runs. -/
def sanitizeString (v : DefaultCommentValidator) (text : Str) : Str :=
  if text = [] then text
  else
    let t := trimSpace text
    let t := removeControlChars v t
    let t := if v.config.EnableHTMLEscape then htmlEscape t else t
    collapseWs t

/-- One step of the metadata loop of `Sanitize`: sanitize the key and the
value and insert the pair only when both are non-empty. -/
def sanStep (v : DefaultCommentValidator) (acc : List (Str × Str)) (kv : Str × Str) :
    List (Str × Str) :=
  let k := sanitizeString v kv.1
  let val := sanitizeString v kv.2
  if k ≠ [] ∧ val ≠ [] then metaSet acc k val else acc

/-- Metadata loop of `Sanitize`: sanitize each key and value, keep the entry
only when both are non-empty, inserting into a fresh map (association-list
order stands for the Go map iteration order). -/
def sanitizeMeta (v : DefaultCommentValidator) (m : List (Str × Str)) : List (Str × Str) :=
  m.foldl (sanStep v) []

/-- DefaultCommentValidator.Sanitize: a new record with every string field
sanitized; tags that sanitize to empty are dropped; metadata entries whose
sanitized key or value is empty are dropped; empty tag or metadata
collections are left as cloned. -/
def Sanitize (v : DefaultCommentValidator) (data : CommentData) : CommentData :=
  { data with
    LogicalName := sanitizeString v data.LogicalName
    Description := sanitizeString v data.Description
    Tags := if data.Tags ≠ [] then (data.Tags.map (sanitizeString v)).filter (· ≠ []) else data.Tags
    Metadata := if data.Metadata ≠ [] then sanitizeMeta v data.Metadata else data.Metadata }

/-- DefaultCommentValidator.ValidateAndSanitize: sanitize first, then
validate the sanitized record. -/
def ValidateAndSanitize (v : DefaultCommentValidator) (data : CommentData) :
    Except ValidationErr CommentData :=
  let sanitized := Sanitize v data
  match Validate v sanitized with
  | some e => .error e
  | none => .ok sanitized

/-! ## Processor (`enhanced_comment_processor.go`) -/

/-- The external Go standard-library / third-party functions the processor
graph calls, kept opaque: the two decoders (`none` = decode error), the two
`fmt.Sprintf("%v")` formatters, the `regexp` engine (`regexCompile pat text`
stands for compiling `pat` and matching it against `text`), and
`unicode.IsPrint`. -/
structure GoLib where
  jsonUnmarshal : Str → Option JValue
  yamlUnmarshal : Str → Option YValue
  jsonFm : JValue → Str
  yamlFm : YValue → Str
  regexCompile : Str → Str → Bool
  isPrint : Char → Bool

/-- The SQL-injection pattern compiled by the validator constructor, as
written in the source. -/
def sqlPattern : Str :=
  "(?i)(union\\s+select|or\\s+1\\s*=\\s*1|and\\s+1\\s*=\\s*1|\x27|\\-\\-|\\/\\*|\\*\\/|xp_|sp_|exec|execute|drop\\s+table|delete\\s+from|insert\\s+into|update\\s+set)".toList

/-- NewDefaultCommentValidatorWithConfig with the matchers obtained from the
regexp engine of `lib`. -/
def mkValidator (lib : GoLib) (config : ValidationConfig) : DefaultCommentValidator :=
  NewDefaultCommentValidatorWithConfig config
    (lib.regexCompile config.AllowedCharPattern) (lib.regexCompile sqlPattern) lib.isPrint

/-- NewDefaultCommentValidator. -/
def NewDefaultCommentValidatorGo (lib : GoLib) : DefaultCommentValidator :=
  mkValidator lib DefaultValidationConfig

/-- ProcessingConfig of the processor. -/
structure ProcessingConfig where
  EnableValidation : Bool
  EnableSanitization : Bool
  DefaultDelimiter : Str
  FallbackToLegacy : Bool
  StrictMode : Bool
  ProcessingTimeout : Int

/-- DefaultProcessingConfig. -/
def DefaultProcessingConfig : ProcessingConfig :=
  { EnableValidation := true
    EnableSanitization := true
    DefaultDelimiter := ['|']
    FallbackToLegacy := true
    StrictMode := false
    ProcessingTimeout := 1000 }

/-- Error of a processor call: a wrapped registry error in strict mode or a
wrapped validation error in strict mode.  The third Go possibility, the
processing-timeout error, belongs to the goroutine/timer mechanism that is
outside this embedding. -/
inductive ProcErr
  | parseFailed (e : RegistryErr)
  | validationFailed (e : ValidationErr)
deriving Repr, DecidableEq

/-- EnhancedCommentProcessor.  The `validator` interface field is
instantiated by `DefaultCommentValidator`, the repository's only
implementation; `none` is the Go nil interface. -/
structure EnhancedCommentProcessor where
  registry : List CommentParser
  validator : Option DefaultCommentValidator
  config : ProcessingConfig

/-- EnhancedCommentProcessor.processCommentInternal: parse with fallback;
on error, fail in strict mode and return an empty record (with only
`Source` set) otherwise; on success annotate `metadata["object_type"]`. -/
def processCommentInternal (p : EnhancedCommentProcessor)
    (comment delimiter : Str) (objectType : ObjectType) : Except ProcErr CommentData :=
  match ParseWithFallback p.registry comment delimiter with
  | .error e =>
    if p.config.StrictMode then .error (.parseFailed e)
    else .ok { Source := comment }
  | .ok result =>
    .ok { result with Metadata := metaSet result.Metadata "object_type".toList objectType.str }

/-- EnhancedCommentProcessor.ProcessComment, non-timeout path: empty input
returns an empty record; an empty delimiter is replaced by the configured
default; then `processCommentInternal` runs.  (In the source the internal
call runs on a goroutine raced against a timer; the timeout branch is not
part of this embedding.) -/
def ProcessComment (p : EnhancedCommentProcessor)
    (comment delimiter : Str) (objectType : ObjectType) : Except ProcErr CommentData :=
  if comment = [] then .ok { Source := comment }
  else
    let delimiter := if delimiter = [] then p.config.DefaultDelimiter else delimiter
    processCommentInternal p comment delimiter objectType

/-- EnhancedCommentProcessor.ProcessCommentWithValidation: run
`ProcessComment`; then, when validation is enabled and a validator is set,
either ValidateAndSanitize (sanitization on; on failure strict mode
propagates, lenient mode returns the merely sanitized record) or Validate
only (failure propagates only in strict mode); when only sanitization is
enabled, sanitize. -/
def ProcessCommentWithValidation (p : EnhancedCommentProcessor)
    (comment delimiter : Str) (objectType : ObjectType) : Except ProcErr CommentData :=
  match ProcessComment p comment delimiter objectType with
  | .error e => .error e
  | .ok result =>
    match p.validator with
    | none => .ok result
    | some v =>
      if p.config.EnableValidation then
        if p.config.EnableSanitization then
          match ValidateAndSanitize v result with
          | .error e =>
            if p.config.StrictMode then .error (.validationFailed e)
            else .ok (Sanitize v result)
          | .ok validated => .ok validated
        else
          match Validate v result with
          | some e =>
            if p.config.StrictMode then .error (.validationFailed e) else .ok result
          | none => .ok result
      else if p.config.EnableSanitization then .ok (Sanitize v result)
      else .ok result

/-- EnhancedCommentProcessor.registerDefaultParsers: a JSONParser (priority
10) and a LegacyParser (priority 1000). -/
def registerDefaultParsers (lib : GoLib) : List CommentParser :=
  RegisterParser (RegisterParser [] (jsonParserAt 10 lib.jsonUnmarshal lib.jsonFm))
    (legacyParser 1000)

/-- NewEnhancedCommentProcessor. -/
def NewEnhancedCommentProcessor (lib : GoLib) : EnhancedCommentProcessor :=
  { registry := registerDefaultParsers lib
    validator := some (NewDefaultCommentValidatorGo lib)
    config := DefaultProcessingConfig }

/-- The `EnhancedCommentConfigurator` interface, as a record of the values
its accessors return. -/
structure EnhancedCommentConfigurator where
  IsEnhancedCommentEnabled : Bool
  IsEnhancedCommentJSONEnabled : Bool
  IsEnhancedCommentYAMLEnabled : Bool
  EnhancedCommentPreferredFormat : Str
  IsEnhancedCommentValidationEnabled : Bool
  IsEnhancedCommentSanitizationEnabled : Bool
  EnhancedCommentSecurityLevel : Str
  IsEnhancedCommentStrictMode : Bool
  EnhancedCommentProcessingTimeout : Int
  LogicalNameDelimiter : Str

/-- EnhancedCommentProcessor.registerParsersFromConfig: the preferred-format
switch.  `json`: JSON(5) and YAML(15) when enabled; `yaml`: YAML(5) and
JSON(10) when enabled; `legacy`: a single LegacyParser(5) and return;
anything else (`auto` included): JSON(10) and YAML(15) when enabled.
All non-`legacy` branches fall through to registering LegacyParser(20). -/
def registerParsersFromConfig (lib : GoLib) (config : EnhancedCommentConfigurator) :
    List CommentParser :=
  let pf := config.EnhancedCommentPreferredFormat
  if pf = "legacy".toList then RegisterParser [] (legacyParser 5)
  else
    let r : List CommentParser :=
      if pf = "json".toList then
        let r : List CommentParser := []
        let r := if config.IsEnhancedCommentJSONEnabled then
          RegisterParser r (jsonParserAt 5 lib.jsonUnmarshal lib.jsonFm) else r
        if config.IsEnhancedCommentYAMLEnabled then
          RegisterParser r (yamlParserAt 15 lib.yamlUnmarshal lib.yamlFm lib.regexCompile) else r
      else if pf = "yaml".toList then
        let r : List CommentParser := []
        let r := if config.IsEnhancedCommentYAMLEnabled then
          RegisterParser r (yamlParserAt 5 lib.yamlUnmarshal lib.yamlFm lib.regexCompile) else r
        if config.IsEnhancedCommentJSONEnabled then
          RegisterParser r (jsonParserAt 10 lib.jsonUnmarshal lib.jsonFm) else r
      else
        let r : List CommentParser := []
        let r := if config.IsEnhancedCommentJSONEnabled then
          RegisterParser r (jsonParserAt 10 lib.jsonUnmarshal lib.jsonFm) else r
        if config.IsEnhancedCommentYAMLEnabled then
          RegisterParser r (yamlParserAt 15 lib.yamlUnmarshal lib.yamlFm lib.regexCompile) else r
    RegisterParser r (legacyParser 20)

/-- createValidatorFromConfig: with validation disabled, the default
validator; otherwise the preset selected by the security level, with HTML
escaping set from the sanitization flag and the SQL check from the
validation flag. -/
def createValidatorFromConfig (lib : GoLib) (config : EnhancedCommentConfigurator) :
    DefaultCommentValidator :=
  if ¬ config.IsEnhancedCommentValidationEnabled then NewDefaultCommentValidatorGo lib
  else
    let vc :=
      if config.EnhancedCommentSecurityLevel = "strict".toList then StrictValidationConfig
      else if config.EnhancedCommentSecurityLevel = "permissive".toList then PermissiveValidationConfig
      else DefaultValidationConfig
    let vc := { vc with
      EnableHTMLEscape := config.IsEnhancedCommentSanitizationEnabled
      EnableSQLInjectionCheck := config.IsEnhancedCommentValidationEnabled }
    mkValidator lib vc

/-- NewEnhancedCommentProcessorFromConfig. -/
def NewEnhancedCommentProcessorFromConfig (lib : GoLib)
    (config : EnhancedCommentConfigurator) : EnhancedCommentProcessor :=
  if ¬ config.IsEnhancedCommentEnabled then NewEnhancedCommentProcessor lib
  else
    { registry := registerParsersFromConfig lib config
      validator := some (createValidatorFromConfig lib config)
      config :=
        { EnableValidation := config.IsEnhancedCommentValidationEnabled
          EnableSanitization := config.IsEnhancedCommentSanitizationEnabled
          DefaultDelimiter := config.LogicalNameDelimiter
          FallbackToLegacy := true
          StrictMode := config.IsEnhancedCommentStrictMode
          ProcessingTimeout := config.EnhancedCommentProcessingTimeout } }

/-! ## Claim C6: Merge characterization -/

/-- Tags of `b` not already present, in order, first occurrences only —
the "order-preserving deduplicated concatenation" of the specification,
written independently of the source loop; `seen` starts at `a`'s tags. -/
def specNewTags (seen : List Str) : List Str → List Str
  | [] => []
  | t :: rest => if t ∈ seen then specNewTags seen rest else t :: specNewTags (seen ++ [t]) rest

/-- Tag merge as the specification words it. -/
def specTagMerge (as bs : List Str) : List Str := as ++ specNewTags as bs

lemma mergeTagsGo_eq_spec (bs : List Str) : ∀ as, mergeTagsGo as bs = specTagMerge as bs := by
  induction bs with
  | nil => intro as; simp [mergeTagsGo, specTagMerge, specNewTags]
  | cons t rest ih =>
    intro as
    by_cases h : t ∈ as
    · simp [mergeTagsGo, specTagMerge, specNewTags, h, ih as]
    · have hstep : mergeTagsGo as (t :: rest) = mergeTagsGo (as ++ [t]) rest := by
        simp [mergeTagsGo, h]
      rw [hstep, ih (as ++ [t])]
      simp [specTagMerge, specNewTags, h, List.append_assoc]

lemma lookupMeta_append_singleton (m : List (Str × Str)) (k' v' k : Str) :
    lookupMeta (m ++ [(k', v')]) k =
      match lookupMeta m k with
      | some v => some v
      | none => if k' = k then some v' else none := by
  induction m with
  | nil => simp [lookupMeta]
  | cons kv rest ih =>
    by_cases h : kv.1 = k
    · simp [lookupMeta, h]
    · simpa [lookupMeta, h] using ih

lemma lookupMeta_mergeMetaGo (bs : List (Str × Str)) :
    ∀ m k, lookupMeta (mergeMetaGo m bs) k =
      match lookupMeta m k with
      | some v => some v
      | none => lookupMeta bs k := by
  induction bs with
  | nil =>
    intro m k
    simp only [mergeMetaGo]
    cases hk : lookupMeta m k <;> simp [hk, lookupMeta]
  | cons kv rest ih =>
    intro m k
    simp only [mergeMetaGo]
    by_cases hm : (lookupMeta m kv.1).isSome
    · rw [if_pos hm, ih m k]
      cases hk : lookupMeta m k with
      | some v => simp
      | none =>
        simp only [lookupMeta]
        by_cases he : kv.1 = k
        · subst he; rw [hk] at hm; simp at hm
        · simp [he]
    · rw [if_neg hm, ih (m ++ [(kv.1, kv.2)]) k, lookupMeta_append_singleton]
      cases hk : lookupMeta m k with
      | some v => simp
      | none =>
        simp only [lookupMeta]
        by_cases he : kv.1 = k <;> simp [he]

/-- C6 (amended): `Merge(a, b)` falls back to `b` only for the
`logical_name` and `description` scalars; `priority` and `deprecated` are
always taken from `a`; the tags are the order-preserving deduplicated
concatenation of `a`'s tags and the new tags of `b`; each metadata key is
looked up in `a` first and in `b` only when absent from `a`. -/
theorem merge_characterization (a b : CommentData) :
    (a.Merge b).LogicalName = (if a.LogicalName = [] then b.LogicalName else a.LogicalName)
    ∧ (a.Merge b).Description = (if a.Description = [] then b.Description else a.Description)
    ∧ (a.Merge b).Tags = specTagMerge a.Tags b.Tags
    ∧ (∀ k, lookupMeta (a.Merge b).Metadata k =
        match lookupMeta a.Metadata k with
        | some v => some v
        | none => lookupMeta b.Metadata k)
    ∧ (a.Merge b).Priority = a.Priority
    ∧ (a.Merge b).Deprecated = a.Deprecated := by
  refine ⟨?_, ?_, ?_, ?_, rfl, rfl⟩
  · by_cases ha : a.LogicalName = [] <;> by_cases hb : b.LogicalName = [] <;>
      simp [CommentData.Merge, ha, hb]
  · by_cases ha : a.Description = [] <;> by_cases hb : b.Description = [] <;>
      simp [CommentData.Merge, ha, hb]
  · by_cases hb : b.Tags = []
    · simp [CommentData.Merge, hb, specTagMerge, specNewTags]
    · simp [CommentData.Merge, hb, mergeTagsGo_eq_spec]
  · intro k
    by_cases hb : b.Metadata = []
    · simp only [CommentData.Merge, hb, ne_eq, not_true_eq_false, if_false]
      cases lookupMeta a.Metadata k <;> simp [hb, lookupMeta]
    · simp [CommentData.Merge, hb, lookupMeta_mergeMetaGo]

/-- C6 counterexample: the claim asserts that `priority` falls back to `b`
when it is zero in `a`; `Merge` never reads `b`'s priority, so merging a
zero-priority record with a priority-7 record yields 0, not 7. -/
theorem merge_priority_counterexample :
    (CommentData.Merge { } { Priority := 7 }).Priority = 0
    ∧ ¬ (CommentData.Merge { } { Priority := 7 }).Priority = 7 := by decide

/-! ## Claim C7: parser registration from configuration -/

/-- C7: with enhanced comments enabled, the processor registry holds,
in order: for preferred format `legacy` a single legacy parser at
priority 5; otherwise the enabled structured parsers at the priorities of
the selected branch (json preferred: JSON 5 / YAML 15; yaml preferred:
YAML 5 / JSON 10; auto or unknown: JSON 10 / YAML 15), always followed by
the legacy parser at priority 20, the highest number, hence tried last. -/
theorem registerParsersFromConfig_spec (lib : GoLib) (config : EnhancedCommentConfigurator)
    (h : config.IsEnhancedCommentEnabled = true) :
    ((NewEnhancedCommentProcessorFromConfig lib config).registry.map fun p => (p.name, p.priority)) =
      (if config.EnhancedCommentPreferredFormat = "legacy".toList then
        [("legacy".toList, (5 : Int))]
      else if config.EnhancedCommentPreferredFormat = "json".toList then
        (if config.IsEnhancedCommentJSONEnabled then [("json".toList, (5 : Int))] else []) ++
        (if config.IsEnhancedCommentYAMLEnabled then [("yaml".toList, (15 : Int))] else []) ++
        [("legacy".toList, (20 : Int))]
      else if config.EnhancedCommentPreferredFormat = "yaml".toList then
        (if config.IsEnhancedCommentYAMLEnabled then [("yaml".toList, (5 : Int))] else []) ++
        (if config.IsEnhancedCommentJSONEnabled then [("json".toList, (10 : Int))] else []) ++
        [("legacy".toList, (20 : Int))]
      else
        (if config.IsEnhancedCommentJSONEnabled then [("json".toList, (10 : Int))] else []) ++
        (if config.IsEnhancedCommentYAMLEnabled then [("yaml".toList, (15 : Int))] else []) ++
        [("legacy".toList, (20 : Int))]) := by
  rw [NewEnhancedCommentProcessorFromConfig, if_neg (by simp [h])]
  simp only [registerParsersFromConfig]
  split_ifs with hl hj hJ hY hY hy hJ hY hY hJ hY hY <;>
    norm_num [RegisterParser, legacyParser, jsonParserAt, yamlParserAt]

/-- A concrete `GoLib` for witnesses.  Only the fields noted at each use
are exercised; where a theorem inspects external behavior the
instantiation is stated to agree with the real library on the inputs
reached. -/
def wLib : GoLib :=
  { jsonUnmarshal := fun s => if s = ['\x7b', '\x7d'] then some (.obj []) else none
    yamlUnmarshal := fun _ => none
    jsonFm := fun _ => []
    yamlFm := fun _ => []
    regexCompile := fun _ _ => false
    isPrint := fun c => 32 ≤ c.toNat ∧ c.toNat < 127 }

/-- Witness for C7: a concrete enabled configurator preferring yaml with
JSON disabled registers exactly YAML(5) then Legacy(20). -/
theorem registerParsersFromConfig_spec_witness :
    ((NewEnhancedCommentProcessorFromConfig wLib
      { IsEnhancedCommentEnabled := true
        IsEnhancedCommentJSONEnabled := false
        IsEnhancedCommentYAMLEnabled := true
        EnhancedCommentPreferredFormat := "yaml".toList
        IsEnhancedCommentValidationEnabled := true
        IsEnhancedCommentSanitizationEnabled := true
        EnhancedCommentSecurityLevel := "default".toList
        IsEnhancedCommentStrictMode := false
        EnhancedCommentProcessingTimeout := 1000
        LogicalNameDelimiter := ['|'] }).registry.map fun p => (p.name, p.priority)) =
      [("yaml".toList, (5 : Int)), ("legacy".toList, (20 : Int))] := by
  rw [registerParsersFromConfig_spec wLib _ rfl]
  decide

/-! ## Claim C8: YAML priority extraction -/

/-- C8 (amended): the priority switch of the YAML converter takes an
integer as is; truncates a float toward zero (`int(v)`), so fractional
floats are not ignored; parses a string by trimming it, rejecting any
string containing a decimal point, then scanning an optional sign and a
non-empty run of digits (trailing characters ignored, 64-bit overflow
rejected), leaving 0 on a scan failure; and leaves 0 for any other type. -/
theorem yaml_priority_extraction (fm : YValue → Str) (m : List (Str × YValue)) (v : YValue)
    (hv : yLookup m "priority".toList = some v) :
    (∀ n, v = .int n → (yConvertMap fm m).Priority = n)
    ∧ (∀ q, v = .float q → (yConvertMap fm m).Priority = Int.tdiv q.num q.den)
    ∧ (∀ str, v = .str str →
        (('.' : Char) ∈ trimSpace str → (yConvertMap fm m).Priority = 0)
        ∧ (trimSpace str = [] → (yConvertMap fm m).Priority = 0)
        ∧ (('.' : Char) ∉ trimSpace str → trimSpace str ≠ [] →
            (yConvertMap fm m).Priority = (sscanfInt (trimSpace str)).getD 0))
    ∧ ((∀ n, v ≠ .int n) → (∀ q, v ≠ .float q) → (∀ str, v ≠ .str str) →
        (yConvertMap fm m).Priority = 0) := by
  have hP : (yConvertMap fm m).Priority = yPriorityOf v := by
    simp only [yConvertMap]
    rw [hv]
  refine ⟨?_, ?_, ?_, ?_⟩
  · rintro n rfl; simp [hP, yPriorityOf]
  · rintro q rfl; simp [hP, yPriorityOf, ratTruncGo]
  · rintro str rfl
    refine ⟨?_, ?_, ?_⟩
    · intro hdot
      by_cases hemp : trimSpace str = []
      · simp [hP, yPriorityOf, parseIntFromString, hemp]
      · simp [hP, yPriorityOf, parseIntFromString, hemp, hdot]
    · intro hemp
      simp [hP, yPriorityOf, parseIntFromString, hemp]
    · intro hdot hne
      simp only [hP, yPriorityOf, parseIntFromString]
      rw [if_neg hne, if_neg (by simpa using hdot)]
  · intro hn hq hs
    cases v with
    | int n => exact absurd rfl (hn n)
    | float q => exact absurd rfl (hq q)
    | str s0 => exact absurd rfl (hs s0)
    | _ => simp [hP, yPriorityOf]

/-- Witness for C8: a mapping with `priority: "12"` yields priority 12. -/
theorem yaml_priority_extraction_witness :
    (yConvertMap wLib.yamlFm [("priority".toList, YValue.str ['1', '2'])]).Priority = 12 := by
  have h := (yaml_priority_extraction wLib.yamlFm
    [("priority".toList, YValue.str ['1', '2'])] (YValue.str ['1', '2']) rfl).2.2.1
    ['1', '2'] rfl
  rw [h.2.2 (by decide) (by decide)]
  decide

/-- C8 counterexample: the claim says a fractional float leaves priority at
0; the code converts `priority: 2.5` with Go `int(2.5)` and stores 2. -/
theorem yaml_priority_float_counterexample :
    (yConvertMap wLib.yamlFm [("priority".toList, YValue.float (mkRat 5 2))]).Priority = 2
    ∧ ¬ (yConvertMap wLib.yamlFm [("priority".toList, YValue.float (mkRat 5 2))]).Priority = 0 := by
  decide

/-! ## Claim C10: a registry containing a legacy parser never errors -/

lemma legacyParseComment_ok (c d : Str) : ∃ r, legacyParseComment c d = .ok r := by
  unfold legacyParseComment
  by_cases h : c = [] <;> simp [h]

lemma parseLoop_ok_of_total (c d : Str) (ps : List CommentParser)
    (p : CommentParser) (hp : p ∈ ps)
    (hcan : ∀ x, p.CanParse x = true)
    (hok : ∀ x y, ∃ r, p.ParseComment x y = .ok r) :
    ∀ acc, ∃ r, parseLoop c d ps acc = .ok r := by
  induction ps with
  | nil => cases hp
  | cons q rest ih =>
    intro acc
    rcases List.mem_cons.mp hp with hqp | hmem
    · subst hqp
      obtain ⟨r, hr⟩ := hok c d
      exact ⟨{ r with Source := c }, by simp [parseLoop, hcan c, hr]⟩
    · by_cases hq : q.CanParse c
      · cases hqr : q.ParseComment c d with
        | ok r => exact ⟨{ r with Source := c }, by simp [parseLoop, hq, hqr]⟩
        | error e =>
          obtain ⟨r, hr⟩ := ih hmem (some e)
          exact ⟨r, by simp [parseLoop, hq, hqr, hr]⟩
      · obtain ⟨r, hr⟩ := ih hmem acc
        exact ⟨r, by simp [parseLoop, hq, hr]⟩

/-- C10: any registry containing a legacy parser (at any priority) parses
every input without error, because the legacy parser accepts everything
and never fails; consequently `processCommentInternal` never reaches its
strict-mode parse-error branch under the default parser set, which always
contains a legacy parser. -/
theorem legacy_registry_never_errors (ps : List CommentParser) (c d : Str) (n : Int)
    (lib : GoLib) (vopt : Option DefaultCommentValidator) (cfg : ProcessingConfig)
    (t : ObjectType) (h : legacyParser n ∈ ps) :
    (∃ r, ParseWithFallback ps c d = .ok r)
    ∧ (∃ r, processCommentInternal
        { registry := registerDefaultParsers lib, validator := vopt, config := cfg }
        c d t = .ok r) := by
  have key : ∀ (qs : List CommentParser) (m : Int), legacyParser m ∈ qs →
      ∀ c0 d0 : Str, ∃ r, ParseWithFallback qs c0 d0 = .ok r := by
    intro qs m hmem c0 d0
    by_cases hc : c0 = []
    · exact ⟨{ Source := c0 }, by simp [ParseWithFallback, hc]⟩
    · obtain ⟨r, hr⟩ := parseLoop_ok_of_total c0 d0 qs (legacyParser m) hmem
        (fun _ => rfl) (fun x y => legacyParseComment_ok x y) none
      exact ⟨r, by simp [ParseWithFallback, hc, hr]⟩
  refine ⟨key ps n h c d, ?_⟩
  have hmem : legacyParser 1000 ∈ registerDefaultParsers lib := by
    norm_num [registerDefaultParsers, RegisterParser, jsonParserAt, legacyParser]
  obtain ⟨r, hr⟩ := key (registerDefaultParsers lib) 1000 hmem c d
  exact ⟨{ r with Metadata := metaSet r.Metadata "object_type".toList t.str },
    by simp [processCommentInternal, hr]⟩

/-- Witness for C10: the singleton legacy registry parses an arbitrary
string, and the default processor's internal pass succeeds on it too. -/
theorem legacy_registry_never_errors_witness :
    (ParseWithFallback [legacyParser 1000] ['x'] ['|']).toOption.isSome = true
    ∧ (processCommentInternal
        { registry := registerDefaultParsers wLib, validator := none,
          config := DefaultProcessingConfig }
        ['x'] ['|'] .table).toOption.isSome = true := by
  obtain ⟨⟨r1, h1⟩, ⟨r2, h2⟩⟩ :=
    legacy_registry_never_errors [legacyParser 1000] ['x'] ['|'] 1000 wLib none
      DefaultProcessingConfig .table (by simp)
  rw [h1, h2]
  exact ⟨rfl, rfl⟩

/-! ## Claim C1: registry fallback characterization -/

/-- Parsers sorted by ascending priority. -/
def sortedByPriority (ps : List CommentParser) : Prop :=
  ps.Pairwise fun a b => a.priority ≤ b.priority

lemma mem_registerParser (ps : List CommentParser) (p x : CommentParser)
    (hx : x ∈ RegisterParser ps p) : x ∈ ps ∨ x = p := by
  induction ps with
  | nil =>
    simp only [RegisterParser, List.mem_singleton] at hx
    exact Or.inr hx
  | cons q rest ih =>
    simp only [RegisterParser] at hx
    by_cases hlt : p.priority < q.priority
    · rw [if_pos hlt] at hx
      rcases List.mem_cons.mp hx with rfl | hx
      · exact Or.inr rfl
      · exact Or.inl hx
    · rw [if_neg hlt] at hx
      rcases List.mem_cons.mp hx with rfl | hx
      · exact Or.inl (List.mem_cons_self _ _)
      · rcases ih hx with hmem | rfl
        · exact Or.inl (List.mem_cons_of_mem _ hmem)
        · exact Or.inr rfl

lemma registerParser_sorted (ps : List CommentParser) (p : CommentParser)
    (h : sortedByPriority ps) : sortedByPriority (RegisterParser ps p) := by
  induction ps with
  | nil => simp [RegisterParser, sortedByPriority]
  | cons q rest ih =>
    rw [sortedByPriority, List.pairwise_cons] at h
    obtain ⟨hq, hrest⟩ := h
    rw [sortedByPriority]
    simp only [RegisterParser]
    by_cases hlt : p.priority < q.priority
    · rw [if_pos hlt, List.pairwise_cons]
      refine ⟨?_, List.Pairwise.cons hq hrest⟩
      intro b hb
      rcases List.mem_cons.mp hb with rfl | hb
      · exact le_of_lt hlt
      · exact le_trans (le_of_lt hlt) (hq b hb)
    · rw [if_neg hlt, List.pairwise_cons]
      refine ⟨?_, ih hrest⟩
      intro b hb
      rcases mem_registerParser rest p b hb with hb | rfl
      · exact hq b hb
      · exact le_of_not_lt hlt

/-- First parser accepting the input and parsing it successfully, and its
record — the specification's "first successful parser". -/
def firstSuccessSpec (parsers : List CommentParser) (c d : Str) : Option CommentData :=
  match parsers with
  | [] => none
  | p :: rest =>
    if p.CanParse c then
      match p.ParseComment c d with
      | .ok r => some r
      | .error _ => firstSuccessSpec rest c d
    else firstSuccessSpec rest c d

/-- Errors of the attempted parsers, in attempt order. -/
def attemptErrors (parsers : List CommentParser) (c d : Str) : List ParseErr :=
  parsers.filterMap fun p =>
    if p.CanParse c then
      match p.ParseComment c d with
      | .error e => some e
      | .ok _ => none
    else none

lemma parseLoop_eq (c d : Str) (ps : List CommentParser) :
    ∀ acc, parseLoop c d ps acc =
      match firstSuccessSpec ps c d with
      | some r => .ok { r with Source := c }
      | none =>
        match (attemptErrors ps c d).getLast? with
        | some e => .error (.allParsersFailed e)
        | none =>
          match acc with
          | some e => .error (.allParsersFailed e)
          | none => .error (.unsupportedFormat c) := by
  induction ps with
  | nil => intro acc; cases acc <;> simp [parseLoop, firstSuccessSpec, attemptErrors]
  | cons p rest ih =>
    intro acc
    by_cases hcan : p.CanParse c
    · cases hpr : p.ParseComment c d with
      | ok r =>
        simp [parseLoop, hcan, hpr, firstSuccessSpec]
      | error e =>
        have hstep : parseLoop c d (p :: rest) acc = parseLoop c d rest (some e) := by
          simp [parseLoop, hcan, hpr]
        have hfs : firstSuccessSpec (p :: rest) c d = firstSuccessSpec rest c d := by
          simp [firstSuccessSpec, hcan, hpr]
        have hae : attemptErrors (p :: rest) c d = e :: attemptErrors rest c d := by
          simp [attemptErrors, hcan, hpr]
        rw [hstep, ih (some e), hfs, hae]
        cases firstSuccessSpec rest c d with
        | some r => rfl
        | none =>
          cases hl : attemptErrors rest c d with
          | nil => rfl
          | cons x xs =>
            rw [List.getLast?_cons_cons]
            cases hgl : (x :: xs).getLast? with
            | some y => rfl
            | none => exact absurd (List.getLast?_eq_none_iff.mp hgl) (by simp)
    · have hstep : parseLoop c d (p :: rest) acc = parseLoop c d rest acc := by
        simp [parseLoop, hcan]
      have hfs : firstSuccessSpec (p :: rest) c d = firstSuccessSpec rest c d := by
        simp [firstSuccessSpec, hcan]
      have hae : attemptErrors (p :: rest) c d = attemptErrors rest c d := by
        simp [attemptErrors, hcan]
      rw [hstep, ih acc, hfs, hae]

/-- C1: registration keeps the registry sorted by ascending priority (so
the fallback loop tries parsers in that order); an empty input returns an
empty record immediately; a non-empty input returns the first accepting
and succeeding parser's record with `Source` set to the input, else the
most recent error of the attempted parsers wrapped in the all-parsers-failed
error, else (nothing attempted) the unsupported-format error. -/
theorem parseWithFallback_spec (ps : List CommentParser) (p : CommentParser) (c d : Str) :
    (sortedByPriority ps → sortedByPriority (RegisterParser ps p))
    ∧ ParseWithFallback ps [] d = .ok { Source := [] }
    ∧ (c ≠ [] →
        ParseWithFallback ps c d =
          match firstSuccessSpec ps c d with
          | some r => .ok { r with Source := c }
          | none =>
            match (attemptErrors ps c d).getLast? with
            | some e => .error (.allParsersFailed e)
            | none => .error (.unsupportedFormat c)) := by
  refine ⟨registerParser_sorted ps p, by simp [ParseWithFallback], ?_⟩
  intro hc
  rw [ParseWithFallback, if_neg hc, parseLoop_eq]

/-- A parser that accepts everything and always fails, for the C1 witness. -/
def wFailParser : CommentParser :=
  { name := ['w']
    priority := 1
    CanParse := fun _ => true
    ParseComment := fun c _ => .error ⟨['w'], c, "boom".toList⟩ }

/-- Witness for C1: at a concrete two-parser registry and a concrete input
the characterization evaluates: the failing parser is skipped past and the
legacy parser's record is returned; registering a priority-5 parser into
the sorted registry keeps it sorted. -/
theorem parseWithFallback_spec_witness :
    sortedByPriority (RegisterParser [wFailParser, legacyParser 1000] (legacyParser 5))
    ∧ ParseWithFallback [wFailParser, legacyParser 1000] ['x'] [] =
        .ok { Source := ['x'], LogicalName := ['x'] } := by
  have h := parseWithFallback_spec [wFailParser, legacyParser 1000] (legacyParser 5) ['x'] []
  refine ⟨h.1 ?_, ?_⟩
  · rw [sortedByPriority, List.pairwise_cons]
    exact ⟨by intro b hb; rw [List.mem_singleton.mp hb]; norm_num [wFailParser, legacyParser],
      by simp⟩
  · rw [h.2.2 (by decide)]
    decide

/-! ## Claim C4: source preservation -/

/-- C4 (amended): the legacy parser preserves `Source` exactly (including
leading and trailing white space); the JSON and YAML parsers set `Source`
to the whitespace-trimmed input, which equals the input exactly when the
input has no leading or trailing white space. -/
theorem source_preservation (jp : JSONParser) (yp : YAMLParser) (c d : Str)
    (r1 r2 r3 : CommentData) :
    (legacyParseComment c d = .ok r1 → r1.Source = c)
    ∧ (jp.CanParseF c = true → jp.ParseCommentF c d = .ok r2 → r2.Source = trimSpace c)
    ∧ (yp.CanParseF c = true → yp.ParseCommentF c d = .ok r3 → r3.Source = trimSpace c)
    := by
  refine ⟨?_, ?_, ?_⟩
  · intro h
    by_cases hc : c = []
    · simp [legacyParseComment, hc] at h
      rw [← h]
      simp [hc]
    · simp only [legacyParseComment, if_neg hc] at h
      rw [Except.ok.injEq] at h
      rw [← h]
  · intro _ hok
    by_cases hc : c = []
    · simp only [JSONParser.ParseCommentF, if_pos hc] at hok
      rw [Except.ok.injEq] at hok
      rw [← hok, hc]
      rfl
    · simp only [JSONParser.ParseCommentF, if_neg hc] at hok
      split_ifs at hok with h1 h2
      cases hu : jp.unmarshal (trimSpace c) with
      | none => rw [hu] at hok; exact absurd hok (by simp)
      | some raw =>
        rw [hu] at hok
        dsimp only at hok
        split_ifs at hok with h3
        rw [Except.ok.injEq] at hok
        rw [← hok]
  · intro _ hok
    by_cases hc : c = []
    · simp only [YAMLParser.ParseCommentF, if_pos hc] at hok
      rw [Except.ok.injEq] at hok
      rw [← hok, hc]
      rfl
    · simp only [YAMLParser.ParseCommentF, if_neg hc] at hok
      split_ifs at hok with h1 h2
      cases hu : yp.unmarshal (trimSpace c) with
      | none => rw [hu] at hok; exact absurd hok (by simp)
      | some raw =>
        rw [hu] at hok
        dsimp only at hok
        split_ifs at hok with h3
        rw [Except.ok.injEq] at hok
        rw [← hok]

/-- A JSONParser over the witness library: its decoder maps the two-byte
comment of braces to the empty object, exactly as `encoding/json` does on
the only input on which it is invoked below. -/
def wJP : JSONParser := { unmarshal := wLib.jsonUnmarshal, fm := wLib.jsonFm }

/-- A YAMLParser over the witness library (its decoder is never invoked in
the witnesses below). -/
def wYP : YAMLParser :=
  { unmarshal := wLib.yamlUnmarshal, fm := wLib.yamlFm, rm := wLib.regexCompile }

/-- Witness for C4 (amended): the legacy conjunct applied at an input with
trailing white space preserves it, and the JSON conjunct at the trimmed
empty-object comment returns `Source` equal to that trimmed input. -/
theorem source_preservation_witness :
    ({ Source := ['a', ' '], LogicalName := ['a'] } : CommentData).Source = ['a', ' ']
    ∧ ({ Source := ['\x7b', '\x7d'] } : CommentData).Source =
        trimSpace ['\x7b', '\x7d'] :=
  ⟨(source_preservation wJP wYP ['a', ' '] ['|']
      { Source := ['a', ' '], LogicalName := ['a'] }
      { Source := ['\x7b', '\x7d'] } { Source := ['\x7b', '\x7d'] }).1 (by decide),
   (source_preservation wJP wYP ['\x7b', '\x7d'] ['|']
      { Source := ['a', ' '], LogicalName := ['a'] }
      { Source := ['\x7b', '\x7d'] } { Source := ['\x7b', '\x7d'] }).2.1
     (by decide) (by decide)⟩

/-- C4 counterexample: the JSON parser accepts an empty-object comment with
a leading space, but the returned record's `Source` is the trimmed text,
not the original input — the claim's "exactly equal, including leading or
trailing whitespace" fails. -/
theorem source_preservation_counterexample :
    wJP.CanParseF [' ', '\x7b', '\x7d'] = true
    ∧ wJP.ParseCommentF [' ', '\x7b', '\x7d'] ['|'] =
        .ok { Source := ['\x7b', '\x7d'] }
    ∧ ¬ (['\x7b', '\x7d'] : Str) = [' ', '\x7b', '\x7d'] := by decide

/-! ## Claim C3: object-type annotation -/

/-- The metadata key written by the processor. -/
def otKey : Str := "object_type".toList

lemma lookupMeta_metaSet_self (m : List (Str × Str)) (k v : Str) :
    lookupMeta (metaSet m k v) k = some v := by
  induction m with
  | nil => simp [metaSet, lookupMeta]
  | cons kv rest ih =>
    by_cases h : kv.1 = k
    · simp [metaSet, h, lookupMeta]
    · simp [metaSet, h, lookupMeta, ih]

lemma lookupMeta_metaSet_ne (m : List (Str × Str)) (k v k' : Str) (h : k' ≠ k) :
    lookupMeta (metaSet m k v) k' = lookupMeta m k' := by
  have hne : ¬ k = k' := fun he => h he.symm
  induction m with
  | nil => simp [metaSet, lookupMeta, hne]
  | cons kv rest ih =>
    by_cases hk : kv.1 = k
    · have hk1 : ¬ kv.1 = k' := by rw [hk]; exact hne
      rw [metaSet, if_pos hk, lookupMeta, if_neg hne, lookupMeta, if_neg hk1]
    · rw [metaSet, if_neg hk, lookupMeta, lookupMeta]
      by_cases hk' : kv.1 = k' <;> simp [hk', ih]

lemma mem_metaSet (m : List (Str × Str)) (k v : Str) (kv : Str × Str)
    (h : kv ∈ metaSet m k v) : kv ∈ m ∨ kv = (k, v) := by
  induction m with
  | nil => simp [metaSet] at h; exact Or.inr h
  | cons kv0 rest ih =>
    by_cases hk : kv0.1 = k
    · rw [metaSet, if_pos hk] at h
      rcases List.mem_cons.mp h with rfl | h
      · exact Or.inr rfl
      · exact Or.inl (List.mem_cons_of_mem _ h)
    · rw [metaSet, if_neg hk] at h
      rcases List.mem_cons.mp h with rfl | h
      · exact Or.inl (List.mem_cons_self _ _)
      · rcases ih h with h | h
        · exact Or.inl (List.mem_cons_of_mem _ h)
        · exact Or.inr h

lemma metaSet_ne_nil (m : List (Str × Str)) (k v : Str) : metaSet m k v ≠ [] := by
  cases m with
  | nil => simp [metaSet]
  | cons kv rest =>
    rw [metaSet]
    by_cases h : kv.1 = k <;> simp [h]

/-- Decomposition of `metaSet`: the written binding sits at one position,
flanked by original bindings; everything left of it has a different key,
and with originally unique keys everything right of it does too. -/
lemma metaSet_decomp (m : List (Str × Str)) (k v : Str) :
    ∃ l1 l2, metaSet m k v = l1 ++ (k, v) :: l2
      ∧ (∀ kv ∈ l1, kv ∈ m) ∧ (∀ kv ∈ l2, kv ∈ m)
      ∧ (∀ kv ∈ l1, kv.1 ≠ k)
      ∧ ((m.map Prod.fst).Nodup → ∀ kv ∈ l2, kv.1 ≠ k) := by
  induction m with
  | nil => exact ⟨[], [], by simp [metaSet]⟩
  | cons kv0 rest ih =>
    by_cases hk : kv0.1 = k
    · refine ⟨[], rest, by simp [metaSet, hk], by simp, ?_, by simp, ?_⟩
      · intro kv hkv; exact List.mem_cons_of_mem _ hkv
      · intro hnd kv hkv
        rw [List.map_cons, List.nodup_cons] at hnd
        intro he
        exact hnd.1 (hk ▸ he ▸ List.mem_map_of_mem Prod.fst hkv)
    · obtain ⟨l1, l2, heq, h1, h2, h3, h4⟩ := ih
      refine ⟨kv0 :: l1, l2, by simp [metaSet, hk, heq], ?_, ?_, ?_, ?_⟩
      · intro kv hkv
        rcases List.mem_cons.mp hkv with rfl | hkv
        · exact List.mem_cons_self _ _
        · exact List.mem_cons_of_mem _ (h1 kv hkv)
      · intro kv hkv; exact List.mem_cons_of_mem _ (h2 kv hkv)
      · intro kv hkv
        rcases List.mem_cons.mp hkv with rfl | hkv
        · exact hk
        · exact h3 kv hkv
      · intro hnd
        rw [List.map_cons, List.nodup_cons] at hnd
        exact h4 hnd.2

lemma dropWhile_eq_self_of_none (p : Char → Bool) (l : Str)
    (h : ∀ ch ∈ l, p ch = false) : l.dropWhile p = l := by
  cases l with
  | nil => rfl
  | cons c rest => rw [List.dropWhile_cons, h c (List.mem_cons_self _ _)]; simp

lemma trimSpace_of_no_space (s : Str) (h : ∀ ch ∈ s, isGoSpace ch = false) :
    trimSpace s = s := by
  rw [trimSpace, dropWhile_eq_self_of_none _ _ h,
    dropWhile_eq_self_of_none _ _ (fun ch hch => h ch (List.mem_reverse.mp hch)),
    List.reverse_reverse]

lemma removeControlChars_of_kept (v : DefaultCommentValidator) (s : Str)
    (h : ∀ ch ∈ s, v.isPrint ch = true ∨ ch = '\t' ∨ ch = '\n' ∨ ch = '\r') :
    removeControlChars v s = s := by
  rw [removeControlChars]
  refine List.filter_eq_self.mpr fun ch hch => ?_
  rcases h ch hch with h1 | h1 | h1 | h1 <;> simp [h1]

lemma htmlEscape_of_plain (s : Str) (h : ∀ ch ∈ s, htmlEscapeChar ch = [ch]) :
    htmlEscape s = s := by
  induction s with
  | nil => rfl
  | cons c rest ih =>
    rw [htmlEscape, h c (List.mem_cons_self _ _),
      ih fun ch hch => h ch (List.mem_cons_of_mem _ hch)]
    rfl

lemma collapseWsAux_of_no_ws (s : Str) (h : ∀ ch ∈ s, reWs ch = false) :
    ∀ b, collapseWsAux s b = s := by
  induction s with
  | nil => intro b; rfl
  | cons c rest ih =>
    intro b
    rw [collapseWsAux]
    rw [if_neg (by simp [h c (List.mem_cons_self _ _)]),
      ih (fun ch hch => h ch (List.mem_cons_of_mem _ hch)) false]

/-- Characters on which `sanitizeString` is the identity: not white space,
kept by the control filter, untouched by HTML escaping, not regexp white
space. -/
def sanInert (v : DefaultCommentValidator) (ch : Char) : Prop :=
  isGoSpace ch = false
    ∧ (v.isPrint ch = true ∨ ch = '\t' ∨ ch = '\n' ∨ ch = '\r')
    ∧ htmlEscapeChar ch = [ch] ∧ reWs ch = false

lemma sanitizeString_fixed (v : DefaultCommentValidator) (s : Str)
    (h : ∀ ch ∈ s, sanInert v ch) : sanitizeString v s = s := by
  by_cases hs : s = []
  · simp [sanitizeString, hs]
  · rw [sanitizeString, if_neg hs]
    try dsimp only
    rw [trimSpace_of_no_space s (fun ch hch => (h ch hch).1),
      removeControlChars_of_kept v s (fun ch hch => (h ch hch).2.1)]
    by_cases hhe : v.config.EnableHTMLEscape
    · rw [if_pos hhe, htmlEscape_of_plain s (fun ch hch => (h ch hch).2.2.1)]
      exact collapseWsAux_of_no_ws s (fun ch hch => (h ch hch).2.2.2) false
    · rw [if_neg hhe]
      exact collapseWsAux_of_no_ws s (fun ch hch => (h ch hch).2.2.2) false

/-- The lower-case letters and the underscore are not white space, not
HTML-escaped, and not regexp white space. -/
lemma word_inert_facts : ∀ ch ∈ "abcdefghijklmnopqrstuvwxyz_".toList,
    isGoSpace ch = false ∧ htmlEscapeChar ch = [ch] ∧ reWs ch = false := by decide

lemma sanInert_of_word (v : DefaultCommentValidator) (ch : Char)
    (hword : ch ∈ "abcdefghijklmnopqrstuvwxyz_".toList)
    (hpr : v.isPrint ch = true) : sanInert v ch :=
  ⟨(word_inert_facts ch hword).1, Or.inl hpr,
   (word_inert_facts ch hword).2.1, (word_inert_facts ch hword).2.2⟩

lemma foldl_sanStep_lookup_ne (v : DefaultCommentValidator) (l : List (Str × Str))
    (h : ∀ kv ∈ l, sanitizeString v kv.1 ≠ otKey) :
    ∀ acc, lookupMeta (l.foldl (sanStep v) acc) otKey = lookupMeta acc otKey := by
  induction l with
  | nil => intro acc; rfl
  | cons kv rest ih =>
    intro acc
    rw [List.foldl_cons, ih (fun kv0 hkv0 => h kv0 (List.mem_cons_of_mem _ hkv0))]
    rw [sanStep]
    try dsimp only
    split_ifs with hcond
    · exact lookupMeta_metaSet_ne _ _ _ _ (Ne.symm (h kv (List.mem_cons_self _ _)))
    · rfl

/-- C3 (amended): when the input is non-empty and the registry parse
succeeds, the record returned by `ProcessCommentWithValidation` carries
`metadata["object_type"] = objectType` — provided (when a validator is
set) that `unicode.IsPrint` holds on lower-case letters and underscore (a
fact of the real Unicode tables), that the parsed record's metadata keys
are unique, and that no other metadata key sanitizes to `object_type`.
The empty-input and lenient-parse-failure paths return a record without
the annotation, which is what the counterexample exhibits. -/
theorem object_type_annotation (ps : List CommentParser)
    (vopt : Option DefaultCommentValidator) (cfg : ProcessingConfig)
    (c d : Str) (t : ObjectType) (r out : CommentData)
    (hc : c ≠ [])
    (hp : ParseWithFallback ps c (if d = [] then cfg.DefaultDelimiter else d) = .ok r)
    (hnd : (r.Metadata.map Prod.fst).Nodup)
    (hv : ∀ v, vopt = some v →
      (∀ ch, ch ∈ "abcdefghijklmnopqrstuvwxyz_".toList → v.isPrint ch = true)
      ∧ (∀ kv, kv ∈ r.Metadata → kv.1 ≠ otKey → sanitizeString v kv.1 ≠ otKey))
    (hout : ProcessCommentWithValidation
      { registry := ps, validator := vopt, config := cfg } c d t = .ok out) :
    lookupMeta out.Metadata otKey = some t.str := by
  set r1 : CommentData := { r with Metadata := metaSet r.Metadata otKey t.str } with hr1
  have hpc : ProcessComment { registry := ps, validator := vopt, config := cfg } c d t
      = .ok r1 := by
    rw [ProcessComment, if_neg hc, processCommentInternal]
    rw [hp]
    rfl
  have hlook1 : lookupMeta r1.Metadata otKey = some t.str :=
    lookupMeta_metaSet_self r.Metadata otKey t.str
  have hsan : ∀ v, vopt = some v →
      lookupMeta (Sanitize v r1).Metadata otKey = some t.str := by
    intro v hvv
    obtain ⟨hpr, hcol⟩ := hv v hvv
    have hwordstr : ∀ (w : Str), (∀ ch ∈ w, ch ∈ "abcdefghijklmnopqrstuvwxyz_".toList) →
        sanitizeString v w = w := fun w hw =>
      sanitizeString_fixed v w fun ch hch =>
        sanInert_of_word v ch (hw ch hch) (hpr ch (hw ch hch))
    have hot : sanitizeString v otKey = otKey := hwordstr otKey (by decide)
    have hts : sanitizeString v t.str = t.str := hwordstr t.str (by cases t <;> decide)
    have htne : t.str ≠ [] := by cases t <;> decide
    have hotne : otKey ≠ [] := by decide
    have hMne : r1.Metadata ≠ [] := metaSet_ne_nil r.Metadata otKey t.str
    have hMeq : (Sanitize v r1).Metadata = sanitizeMeta v r1.Metadata := by
      rw [Sanitize]
      try dsimp only
      rw [if_pos hMne]
    rw [hMeq]
    show lookupMeta (sanitizeMeta v (metaSet r.Metadata otKey t.str)) otKey = some t.str
    obtain ⟨l1, l2, heq, h1, h2, h3, h4⟩ := metaSet_decomp r.Metadata otKey t.str
    have hnd2 := h4 hnd
    rw [sanitizeMeta, heq, List.foldl_append, List.foldl_cons]
    have hl2 : ∀ kv ∈ l2, sanitizeString v kv.1 ≠ otKey := fun kv hkv =>
      hcol kv (h2 kv hkv) (hnd2 kv hkv)
    rw [foldl_sanStep_lookup_ne v l2 hl2]
    rw [sanStep]
    try dsimp only
    rw [hot, hts, if_pos ⟨hotne, htne⟩]
    exact lookupMeta_metaSet_self _ otKey t.str
  rw [ProcessCommentWithValidation, hpc] at hout
  try dsimp only at hout
  cases hvo : vopt with
  | none =>
    rw [hvo] at hout
    try dsimp only at hout
    rw [Except.ok.injEq] at hout
    rw [← hout]
    exact hlook1
  | some v =>
    rw [hvo] at hout
    try dsimp only at hout
    by_cases hval : cfg.EnableValidation
    · rw [if_pos hval] at hout
      by_cases hsa : cfg.EnableSanitization
      · rw [if_pos hsa] at hout
        cases hvs : ValidateAndSanitize v r1 with
        | error e =>
          rw [hvs] at hout
          try dsimp only at hout
          split_ifs at hout
          rw [Except.ok.injEq] at hout
          rw [← hout]
          exact hsan v hvo
        | ok validated =>
          rw [hvs] at hout
          try dsimp only at hout
          rw [Except.ok.injEq] at hout
          rw [← hout]
          have hvd : validated = Sanitize v r1 := by
            rw [ValidateAndSanitize] at hvs
            try dsimp only at hvs
            cases hvr : Validate v (Sanitize v r1) with
            | some e => rw [hvr] at hvs; cases hvs
            | none =>
              rw [hvr] at hvs
              rw [Except.ok.injEq] at hvs
              exact hvs.symm
          rw [hvd]
          exact hsan v hvo
      · rw [if_neg hsa] at hout
        cases hvr : Validate v r1 with
        | none =>
          rw [hvr] at hout
          try dsimp only at hout
          rw [Except.ok.injEq] at hout
          rw [← hout]; exact hlook1
        | some e =>
          rw [hvr] at hout
          try dsimp only at hout
          split_ifs at hout
          rw [Except.ok.injEq] at hout
          rw [← hout]; exact hlook1
    · rw [if_neg hval] at hout
      by_cases hsa : cfg.EnableSanitization
      · rw [if_pos hsa] at hout
        rw [Except.ok.injEq] at hout
        rw [← hout]
        exact hsan v hvo
      · rw [if_neg hsa] at hout
        rw [Except.ok.injEq] at hout
        rw [← hout]; exact hlook1

/-- A processor with the legacy-only registry and the default validator
over the witness library, used by the C3 counterexample. -/
def wProcLegacy : EnhancedCommentProcessor :=
  { registry := [legacyParser 1000]
    validator := some (NewDefaultCommentValidatorGo wLib)
    config := DefaultProcessingConfig }

/-- C3 counterexample: on empty input the processor returns an empty record
immediately and never writes `metadata["object_type"]`, so the claim's
"in particular this holds when text is empty" is false. -/
theorem object_type_annotation_counterexample :
    ProcessCommentWithValidation wProcLegacy [] ['|'] ObjectType.table =
      .ok { Source := [] }
    ∧ lookupMeta ({ Source := [] } : CommentData).Metadata otKey = none := by decide

/-- Witness for C3 (amended): a concrete legacy parse of `n|d` under the
permissive validator carries the table annotation through sanitization. -/
theorem object_type_annotation_witness :
    lookupMeta
      ({ LogicalName := ['n'], Description := ['d'], Source := "n|d".toList,
         Metadata := [(otKey, "table".toList)] } : CommentData).Metadata otKey
      = some ObjectType.table.str := by
  refine object_type_annotation [legacyParser 1000]
    (some (mkValidator wLib PermissiveValidationConfig)) DefaultProcessingConfig
    "n|d".toList ['|'] .table
    { LogicalName := ['n'], Description := ['d'], Source := "n|d".toList }
    { LogicalName := ['n'], Description := ['d'], Source := "n|d".toList,
      Metadata := [(otKey, "table".toList)] }
    (by decide) (by decide) (by decide) ?_ (by decide)
  intro v hv
  rw [Option.some.injEq] at hv
  subst hv
  refine ⟨by decide, ?_⟩
  intro kv hkv
  exact absurd hkv (List.not_mem_nil kv)

/-! ## Claim C2: strict versus lenient mode -/

/-- Sanitizing a record whose string collections are empty changes
nothing, whatever the validator. -/
lemma sanitize_empty_record (v : DefaultCommentValidator) (c : Str) :
    Sanitize v { Source := c } = { Source := c } := by
  rw [Sanitize]
  simp [sanitizeString]

/-- Validating a record whose string collections are empty succeeds,
whatever the validator. -/
lemma validate_empty_record (v : DefaultCommentValidator) (c : Str) :
    Validate v { Source := c } = none := by
  rw [Validate]
  simp [validateLogicalName, validateDescription, validateTags, validateMetadata,
    Option.orElse]

/-- The validation phase of `ProcessCommentWithValidation`, split off for
reuse: once `ProcessComment` succeeded with `r`, the result is determined
by the validator and the three flags. -/
lemma pcwv_eq_phase (p : EnhancedCommentProcessor) (c d : Str) (t : ObjectType)
    (r : CommentData) (h : ProcessComment p c d t = .ok r) :
    ProcessCommentWithValidation p c d t =
      match p.validator with
      | none => .ok r
      | some v =>
        if p.config.EnableValidation then
          if p.config.EnableSanitization then
            match ValidateAndSanitize v r with
            | .error e =>
              if p.config.StrictMode then .error (.validationFailed e)
              else .ok (Sanitize v r)
            | .ok validated => .ok validated
          else
            match Validate v r with
            | some e =>
              if p.config.StrictMode then .error (.validationFailed e) else .ok r
            | none => .ok r
        else if p.config.EnableSanitization then .ok (Sanitize v r)
        else .ok r := by
  rw [ProcessCommentWithValidation, h]

/-- With empty collections the validation phase never fails and returns
the record unchanged. -/
lemma pcwv_empty_fields (p : EnhancedCommentProcessor) (c d : Str) (t : ObjectType)
    (h : ProcessComment p c d t = .ok { Source := c }) :
    ProcessCommentWithValidation p c d t = .ok { Source := c } := by
  rw [pcwv_eq_phase p c d t _ h]
  cases p.validator with
  | none => rfl
  | some v =>
    try dsimp only
    by_cases hval : p.config.EnableValidation
    · rw [if_pos hval]
      by_cases hsa : p.config.EnableSanitization
      · rw [if_pos hsa]
        rw [show ValidateAndSanitize v { Source := c } = .ok { Source := c } from by
          rw [ValidateAndSanitize]
          try dsimp only
          rw [sanitize_empty_record, validate_empty_record]]
      · rw [if_neg hsa, validate_empty_record]
    · rw [if_neg hval]
      by_cases hsa : p.config.EnableSanitization
      · rw [if_pos hsa, sanitize_empty_record]
      · rw [if_neg hsa]

/-- C2: whenever the strict processor returns an error, the identically
configured lenient processor returns a record without error: for a parse
failure, the empty record (with only `Source` set); for a validation
failure, the sanitized annotated record when sanitization is enabled and
the pre-validation annotated record otherwise. -/
theorem strict_lenient_contract (ps : List CommentParser)
    (vopt : Option DefaultCommentValidator) (cfg : ProcessingConfig)
    (c d : Str) (t : ObjectType) (e : ProcErr)
    (hs : ProcessCommentWithValidation
      { registry := ps, validator := vopt, config := { cfg with StrictMode := true } }
      c d t = .error e) :
    (∀ re, e = .parseFailed re →
      ProcessCommentWithValidation
        { registry := ps, validator := vopt, config := { cfg with StrictMode := false } }
        c d t = .ok { Source := c }
      ∧ CommentData.IsEmpty ({ Source := c } : CommentData))
    ∧ (∀ ve, e = .validationFailed ve → ∃ v r1,
        vopt = some v
        ∧ processCommentInternal
            { registry := ps, validator := vopt, config := { cfg with StrictMode := false } }
            c (if d = [] then cfg.DefaultDelimiter else d) t = .ok r1
        ∧ ProcessCommentWithValidation
            { registry := ps, validator := vopt, config := { cfg with StrictMode := false } }
            c d t = .ok (if cfg.EnableSanitization then Sanitize v r1 else r1)) := by
  by_cases hc : c = []
  · exfalso
    have h0 : ProcessComment
        { registry := ps, validator := vopt, config := { cfg with StrictMode := true } }
        c d t = .ok { Source := c } := by
      rw [ProcessComment, if_pos hc]
    rw [pcwv_empty_fields _ _ _ _ h0] at hs
    cases hs
  · cases hpf : ParseWithFallback ps c (if d = [] then cfg.DefaultDelimiter else d) with
    | error re0 =>
      have hints : processCommentInternal
          { registry := ps, validator := vopt, config := { cfg with StrictMode := true } }
          c (if d = [] then cfg.DefaultDelimiter else d) t = .error (.parseFailed re0) := by
        rw [processCommentInternal, hpf]
        rfl
      have hpcS : ProcessComment
          { registry := ps, validator := vopt, config := { cfg with StrictMode := true } }
          c d t = .error (.parseFailed re0) := by
        rw [ProcessComment, if_neg hc]
        exact hints
      have hsE : e = .parseFailed re0 := by
        rw [ProcessCommentWithValidation, hpcS] at hs
        try dsimp only at hs
        rw [Except.error.injEq] at hs
        exact hs.symm
      have hintL : processCommentInternal
          { registry := ps, validator := vopt, config := { cfg with StrictMode := false } }
          c (if d = [] then cfg.DefaultDelimiter else d) t = .ok { Source := c } := by
        rw [processCommentInternal, hpf]
        rfl
      have hpcL : ProcessComment
          { registry := ps, validator := vopt, config := { cfg with StrictMode := false } }
          c d t = .ok { Source := c } := by
        rw [ProcessComment, if_neg hc]
        exact hintL
      refine ⟨fun re hre => ⟨pcwv_empty_fields _ _ _ _ hpcL, ⟨rfl, rfl, rfl, rfl⟩⟩,
        fun ve hve => ?_⟩
      rw [hsE] at hve
      cases hve
    | ok r =>
      have hints : ∀ b, processCommentInternal
          { registry := ps, validator := vopt, config := { cfg with StrictMode := b } }
          c (if d = [] then cfg.DefaultDelimiter else d) t =
            .ok { r with Metadata := metaSet r.Metadata otKey t.str } := by
        intro b
        rw [processCommentInternal, hpf]
        rfl
      have hpcB : ∀ b, ProcessComment
          { registry := ps, validator := vopt, config := { cfg with StrictMode := b } }
          c d t = .ok { r with Metadata := metaSet r.Metadata otKey t.str } := by
        intro b
        rw [ProcessComment, if_neg hc]
        exact hints b
      set r1 : CommentData := { r with Metadata := metaSet r.Metadata otKey t.str } with hr1
      rw [pcwv_eq_phase _ _ _ _ _ (hpcB true)] at hs
      cases hvo : vopt with
      | none => rw [hvo] at hs; cases hs
      | some v =>
        subst hvo
        try dsimp only at hs
        by_cases hval : cfg.EnableValidation
        · rw [if_pos hval] at hs
          by_cases hsa : cfg.EnableSanitization
          · rw [if_pos hsa] at hs
            cases hvs : ValidateAndSanitize v r1 with
            | ok validated => rw [hvs] at hs; cases hs
            | error ev =>
              rw [hvs] at hs
              try dsimp only at hs
              rw [if_pos rfl, Except.error.injEq] at hs
              refine ⟨fun re hre => ?_, fun ve hve => ?_⟩
              · rw [← hs] at hre; cases hre
              · refine ⟨v, r1, rfl, hints false, ?_⟩
                rw [pcwv_eq_phase _ _ _ _ _ (hpcB false)]
                try dsimp only
                rw [if_pos hval, if_pos hsa, hvs]
                try dsimp only
                rw [if_neg (by simp), if_pos hsa]
          · rw [if_neg hsa] at hs
            cases hvr : Validate v r1 with
            | none => rw [hvr] at hs; cases hs
            | some ev =>
              rw [hvr] at hs
              try dsimp only at hs
              rw [if_pos rfl, Except.error.injEq] at hs
              refine ⟨fun re hre => ?_, fun ve hve => ?_⟩
              · rw [← hs] at hre; cases hre
              · refine ⟨v, r1, rfl, hints false, ?_⟩
                rw [pcwv_eq_phase _ _ _ _ _ (hpcB false)]
                try dsimp only
                rw [if_pos hval, if_neg hsa, hvr]
                try dsimp only
                rw [if_neg (by simp), if_neg hsa]
        · rw [if_neg hval] at hs
          by_cases hsa : cfg.EnableSanitization
          · rw [if_pos hsa] at hs; cases hs
          · rw [if_neg hsa] at hs; cases hs

/-- Validator with a one-rune logical-name limit and no other checks, for
the C2 witness. -/
def wV2 : DefaultCommentValidator :=
  mkValidator wLib { PermissiveValidationConfig with MaxLogicalNameLength := 1 }

/-- Processing configuration with validation on and sanitization off, for
the C2 witness. -/
def wCfg2 : ProcessingConfig :=
  { EnableValidation := true
    EnableSanitization := false
    DefaultDelimiter := ['|']
    FallbackToLegacy := true
    StrictMode := false
    ProcessingTimeout := 1000 }

/-- Witness for C2: a two-rune logical name under a one-rune limit fails
validation in strict mode; the theorem then yields a lenient success. -/
theorem strict_lenient_contract_witness :
    ProcessCommentWithValidation
      { registry := [legacyParser 1000], validator := some wV2,
        config := { wCfg2 with StrictMode := true } }
      "ab".toList ['|'] .table =
      .error (.validationFailed ⟨"logical_name".toList, "ab".toList,
        "logical name too long".toList⟩)
    ∧ (ProcessCommentWithValidation
        { registry := [legacyParser 1000], validator := some wV2,
          config := { wCfg2 with StrictMode := false } }
        "ab".toList ['|'] .table).toOption.isSome = true := by
  have h1 : ProcessCommentWithValidation
      { registry := [legacyParser 1000], validator := some wV2,
        config := { wCfg2 with StrictMode := true } }
      "ab".toList ['|'] .table =
      .error (.validationFailed ⟨"logical_name".toList, "ab".toList,
        "logical name too long".toList⟩) := by decide
  refine ⟨h1, ?_⟩
  obtain ⟨v, r1, -, -, heq⟩ := (strict_lenient_contract [legacyParser 1000] (some wV2)
    wCfg2 "ab".toList ['|'] .table _ h1).2 _ rfl
  rw [heq]
  rfl

/-! ## Claim C5: idempotence of sanitization -/

/-- Characters the control-character filter keeps. -/
def keepChar (v : DefaultCommentValidator) (ch : Char) : Prop :=
  v.isPrint ch = true ∨ ch = '\t' ∨ ch = '\n' ∨ ch = '\r'

instance (v : DefaultCommentValidator) (ch : Char) : Decidable (keepChar v ch) := by
  unfold keepChar; infer_instance

lemma isGoSpace_of_reWs (ch : Char) (h : reWs ch = true) : isGoSpace ch = true := by
  simp only [reWs, decide_eq_true_eq] at h
  rcases h with h | h | h | h | h
  · subst h; decide
  · subst h; decide
  · subst h; decide
  · simp [isGoSpace, h]
  · simp [isGoSpace, h]

lemma reWs_false_of_goSpace_false (ch : Char) (h : isGoSpace ch = false) :
    reWs ch = false := by
  cases hr : reWs ch with
  | false => rfl
  | true => rw [isGoSpace_of_reWs ch hr] at h; cases h

lemma mem_dropWhile (p : Char → Bool) (l : Str) (ch : Char)
    (h : ch ∈ l.dropWhile p) : ch ∈ l :=
  (List.dropWhile_sublist p (l := l)).mem h

lemma mem_trimSpace (s : Str) (ch : Char) (h : ch ∈ trimSpace s) : ch ∈ s := by
  rw [trimSpace] at h
  rw [List.mem_reverse] at h
  have h2 := mem_dropWhile _ _ _ h
  rw [List.mem_reverse] at h2
  exact mem_dropWhile _ _ _ h2

lemma head?_dropWhile_false (p : Char → Bool) (l : Str) (c : Char)
    (h : (l.dropWhile p).head? = some c) : p c = false := by
  induction l with
  | nil => cases h
  | cons x rest ih =>
    rw [List.dropWhile_cons] at h
    by_cases hx : p x
    · rw [if_pos hx] at h; exact ih h
    · rw [if_neg hx] at h
      rw [List.head?_cons, Option.some.injEq] at h
      rw [← h]
      exact eq_false_of_ne_true hx

lemma head?_of_pfx (l1 l2 : Str) (h : l1 <+: l2) (hne : l1 ≠ []) :
    l1.head? = l2.head? := by
  obtain ⟨t, rfl⟩ := h
  cases l1 with
  | nil => exact absurd rfl hne
  | cons x r => rfl

lemma trimSpace_prefix_dropWhile (s : Str) :
    trimSpace s <+: s.dropWhile isGoSpace := by
  have h : ((s.dropWhile isGoSpace).reverse.dropWhile isGoSpace) <:+
      (s.dropWhile isGoSpace).reverse := List.dropWhile_suffix _
  have h2 := List.reverse_prefix.mpr h
  rw [List.reverse_reverse] at h2
  exact h2

lemma trimSpace_head?_false (s : Str) (c : Char)
    (h : (trimSpace s).head? = some c) : isGoSpace c = false := by
  have hne : trimSpace s ≠ [] := by
    intro he; rw [he] at h; cases h
  rw [head?_of_pfx _ _ (trimSpace_prefix_dropWhile s) hne] at h
  exact head?_dropWhile_false _ _ _ h

lemma trimSpace_getLast?_false (s : Str) (c : Char)
    (h : (trimSpace s).getLast? = some c) : isGoSpace c = false := by
  rw [trimSpace, List.getLast?_reverse] at h
  exact head?_dropWhile_false _ _ _ h

lemma mem_collapseWsAux (t : Str) (ch : Char) :
    ∀ b, ch ∈ collapseWsAux t b → ch ∈ t ∨ ch = ' ' := by
  induction t with
  | nil => intro b h; cases h
  | cons x rest ih =>
    intro b h
    rw [collapseWsAux] at h
    by_cases hx : reWs x
    · rw [if_pos hx] at h
      by_cases hb : b
      · rw [if_pos hb] at h
        rcases ih true h with h | h
        · exact Or.inl (List.mem_cons_of_mem _ h)
        · exact Or.inr h
      · rw [if_neg hb] at h
        rcases List.mem_cons.mp h with rfl | h
        · exact Or.inr rfl
        · rcases ih true h with h | h
          · exact Or.inl (List.mem_cons_of_mem _ h)
          · exact Or.inr h
    · rw [if_neg hx] at h
      rcases List.mem_cons.mp h with rfl | h
      · exact Or.inl (List.mem_cons_self _ _)
      · rcases ih false h with h | h
        · exact Or.inl (List.mem_cons_of_mem _ h)
        · exact Or.inr h

lemma collapseWsAux_getLast (t : Str) (c : Char)
    (hlast : t.getLast? = some c) (hc : reWs c = false) :
    ∀ b, (collapseWsAux t b).getLast? = some c := by
  induction t with
  | nil => cases hlast
  | cons x rest ih =>
    intro b
    cases rest with
    | nil =>
      rw [List.getLast?_singleton, Option.some.injEq] at hlast
      subst hlast
      rw [collapseWsAux, if_neg (by simp [hc])]
      rfl
    | cons y rest2 =>
      rw [List.getLast?_cons_cons] at hlast
      have hy := ih hlast
      have hne : ∀ b2, collapseWsAux (y :: rest2) b2 ≠ [] := by
        intro b2 he
        have hb2 := hy b2
        rw [he] at hb2
        cases hb2
      rw [collapseWsAux]
      by_cases hx : reWs x
      · rw [if_pos hx]
        by_cases hb : b
        · rw [if_pos hb]; exact hy true
        · rw [if_neg hb]
          cases hcol : collapseWsAux (y :: rest2) true with
          | nil => exact absurd hcol (hne true)
          | cons z zs =>
            rw [List.getLast?_cons_cons, ← hcol]
            exact hy true
      · rw [if_neg hx]
        cases hcol : collapseWsAux (y :: rest2) false with
        | nil => exact absurd hcol (hne false)
        | cons z zs =>
          rw [List.getLast?_cons_cons, ← hcol]
          exact hy false

lemma collapseWsAux_head_true (t : Str) :
    collapseWsAux t true = [] ∨
      ∃ c rest, collapseWsAux t true = c :: rest ∧ reWs c = false := by
  induction t with
  | nil => exact Or.inl rfl
  | cons x rest ih =>
    by_cases hx : reWs x
    · rw [collapseWsAux, if_pos hx, if_pos rfl]
      exact ih
    · rw [collapseWsAux, if_neg hx]
      exact Or.inr ⟨x, _, rfl, eq_false_of_ne_true hx⟩

lemma collapseWsAux_flag_eq (l : Str)
    (h : l = [] ∨ ∃ c rest, l = c :: rest ∧ reWs c = false) :
    collapseWsAux l true = collapseWsAux l false := by
  rcases h with rfl | ⟨c, rest, rfl, hc⟩
  · rfl
  · rw [collapseWsAux, collapseWsAux, if_neg (by simp [hc]), if_neg (by simp [hc])]

lemma collapseWs_idem (t : Str) : ∀ b, collapseWsAux (collapseWsAux t b) false = collapseWsAux t b := by
  induction t with
  | nil => intro b; rfl
  | cons x rest ih =>
    intro b
    by_cases hx : reWs x
    · rw [collapseWsAux, if_pos hx]
      by_cases hb : b
      · rw [if_pos hb]
        exact ih true
      · rw [if_neg hb]
        rw [collapseWsAux, if_pos (by decide), if_neg (by simp)]
        rw [collapseWsAux_flag_eq _ (collapseWsAux_head_true rest)]
        exact congrArg (fun l => ' ' :: l) (ih true)
    · rw [collapseWsAux, if_neg hx]
      rw [collapseWsAux, if_neg hx]
      rw [ih false]

lemma sanitizeString_chars (v : DefaultCommentValidator)
    (hhe : v.config.EnableHTMLEscape = false) (s : Str) (ch : Char)
    (h : ch ∈ sanitizeString v s) : ch ∈ s ∨ ch = ' ' := by
  by_cases hs : s = []
  · rw [sanitizeString, if_pos hs, hs] at h
    cases h
  · rw [sanitizeString, if_neg hs] at h
    try dsimp only at h
    rw [if_neg (by simp [hhe])] at h
    rcases mem_collapseWsAux _ ch false h with h | h
    · rw [removeControlChars] at h
      exact Or.inl (mem_trimSpace s ch (List.mem_of_mem_filter h))
    · exact Or.inr h

lemma sanitizeString_idem (v : DefaultCommentValidator)
    (hhe : v.config.EnableHTMLEscape = false) (hsp : v.isPrint ' ' = true)
    (s : Str) (hk : ∀ ch ∈ s, keepChar v ch) :
    sanitizeString v (sanitizeString v s) = sanitizeString v s := by
  by_cases hs : s = []
  · subst hs; rfl
  · have hrw : ∀ (x : Str), x ≠ [] →
        sanitizeString v x = collapseWs (removeControlChars v (trimSpace x)) := by
      intro x hx
      rw [sanitizeString, if_neg hx]
      try dsimp only
      rw [if_neg (by simp [hhe])]
    have htk : ∀ ch ∈ trimSpace s, keepChar v ch :=
      fun ch hch => hk ch (mem_trimSpace s ch hch)
    have hrc : removeControlChars v (trimSpace s) = trimSpace s :=
      removeControlChars_of_kept v _ htk
    have h1 : sanitizeString v s = collapseWs (trimSpace s) := by rw [hrw s hs, hrc]
    by_cases hu : collapseWs (trimSpace s) = []
    · rw [h1, hu]
      rfl
    · rw [h1, hrw _ hu]
      have hchar : ∀ ch ∈ collapseWs (trimSpace s), keepChar v ch := by
        intro ch hch
        rcases mem_collapseWsAux (trimSpace s) ch false hch with h | rfl
        · exact htk ch h
        · exact Or.inl hsp
      have htne : trimSpace s ≠ [] := by
        intro he
        apply hu
        rw [he]
        rfl
      have htu : trimSpace (collapseWs (trimSpace s)) = collapseWs (trimSpace s) := by
        cases hT : trimSpace s with
        | nil => exact absurd hT htne
        | cons c0 t2 =>
          rw [← hT]
          have hc0 : isGoSpace c0 = false :=
            trimSpace_head?_false s c0 (by rw [hT]; rfl)
          have hc0r : reWs c0 = false := reWs_false_of_goSpace_false c0 hc0
          have hhead : collapseWs (trimSpace s) = c0 :: collapseWsAux t2 false := by
            rw [hT, collapseWs, collapseWsAux, if_neg (by simp [hc0r])]
          cases hgl : (trimSpace s).getLast? with
          | none => exact absurd (List.getLast?_eq_none_iff.mp hgl) htne
          | some cl =>
            have hclg : isGoSpace cl = false := trimSpace_getLast?_false s cl hgl
            have hclr := reWs_false_of_goSpace_false cl hclg
            have hul : (collapseWs (trimSpace s)).getLast? = some cl := by
              rw [collapseWs]
              exact collapseWsAux_getLast _ cl hgl hclr false
            have hdw : (collapseWs (trimSpace s)).dropWhile isGoSpace =
                collapseWs (trimSpace s) := by
              rw [hhead, List.dropWhile_cons, if_neg (by simp [hc0]), ← hhead]
            have hdwr : (collapseWs (trimSpace s)).reverse.dropWhile isGoSpace =
                (collapseWs (trimSpace s)).reverse := by
              cases hur : (collapseWs (trimSpace s)).reverse with
              | nil => rfl
              | cons cr rest =>
                have hh : (collapseWs (trimSpace s)).reverse.head? = some cl := by
                  rw [List.head?_reverse]
                  exact hul
                rw [hur, List.head?_cons, Option.some.injEq] at hh
                subst hh
                rw [List.dropWhile_cons, if_neg (by simp [hclg])]
            rw [trimSpace, hdw, hdwr, List.reverse_reverse]
      have hrcu : removeControlChars v (collapseWs (trimSpace s)) =
          collapseWs (trimSpace s) := removeControlChars_of_kept v _ hchar
      rw [htu, hrcu, collapseWs, collapseWs]
      exact collapseWs_idem (trimSpace s) false

lemma map_fst_metaSet (m : List (Str × Str)) (k v : Str) :
    (metaSet m k v).map Prod.fst =
      if (lookupMeta m k).isSome then m.map Prod.fst else m.map Prod.fst ++ [k] := by
  induction m with
  | nil => simp [metaSet, lookupMeta]
  | cons kv rest ih =>
    by_cases hk : kv.1 = k
    · simp [metaSet, hk, lookupMeta]
    · simp only [metaSet, if_neg hk, lookupMeta, List.map_cons, ih]
      by_cases hl : (lookupMeta rest k).isSome <;> simp [hk, hl]

lemma lookupMeta_eq_none_iff (m : List (Str × Str)) (k : Str) :
    lookupMeta m k = none ↔ k ∉ m.map Prod.fst := by
  induction m with
  | nil => simp [lookupMeta]
  | cons kv rest ih =>
    rw [lookupMeta, List.map_cons, List.mem_cons]
    by_cases hk : kv.1 = k
    · rw [if_pos hk]
      simp [hk]
    · rw [if_neg hk, ih]
      constructor
      · intro h hcon
        rcases hcon with h1 | h2
        · exact hk h1.symm
        · exact h h2
      · intro h h2
        exact h (Or.inr h2)

lemma nodup_keys_metaSet (m : List (Str × Str)) (k v : Str)
    (h : (m.map Prod.fst).Nodup) : ((metaSet m k v).map Prod.fst).Nodup := by
  rw [map_fst_metaSet]
  split_ifs with hl
  · exact h
  · rw [List.nodup_append]
    refine ⟨h, List.nodup_singleton k, ?_⟩
    intro a ha hamem
    rw [List.mem_singleton] at hamem
    subst hamem
    exact (lookupMeta_eq_none_iff m a).mp (Option.not_isSome_iff_eq_none.mp hl) ha

lemma metaSet_append_of_absent (m : List (Str × Str)) (k v : Str)
    (h : lookupMeta m k = none) : metaSet m k v = m ++ [(k, v)] := by
  induction m with
  | nil => rfl
  | cons kv rest ih =>
    rw [lookupMeta] at h
    by_cases hk : kv.1 = k
    · rw [if_pos hk] at h; cases h
    · rw [if_neg hk] at h
      rw [metaSet, if_neg hk, ih h]
      rfl

lemma mem_foldl_sanStep (v : DefaultCommentValidator) (l : List (Str × Str)) :
    ∀ acc kv, kv ∈ l.foldl (sanStep v) acc →
      kv ∈ acc ∨ ∃ kv0 ∈ l, kv = (sanitizeString v kv0.1, sanitizeString v kv0.2)
        ∧ sanitizeString v kv0.1 ≠ [] ∧ sanitizeString v kv0.2 ≠ [] := by
  induction l with
  | nil => intro acc kv h; exact Or.inl h
  | cons kv0 rest ih =>
    intro acc kv h
    rw [List.foldl_cons] at h
    rcases ih (sanStep v acc kv0) kv h with h | ⟨kv1, hkv1, heq, h1, h2⟩
    · rw [sanStep] at h
      try dsimp only at h
      split_ifs at h with hcond
      · rcases mem_metaSet _ _ _ _ h with h | h
        · exact Or.inl h
        · exact Or.inr ⟨kv0, List.mem_cons_self _ _, h, hcond.1, hcond.2⟩
      · exact Or.inl h
    · exact Or.inr ⟨kv1, List.mem_cons_of_mem _ hkv1, heq, h1, h2⟩

lemma keys_nodup_foldl_sanStep (v : DefaultCommentValidator) (l : List (Str × Str)) :
    ∀ acc, (acc.map Prod.fst).Nodup →
      ((l.foldl (sanStep v) acc).map Prod.fst).Nodup := by
  induction l with
  | nil => intro acc h; exact h
  | cons kv rest ih =>
    intro acc h
    rw [List.foldl_cons]
    refine ih _ ?_
    rw [sanStep]
    try dsimp only
    split_ifs with hcond
    · exact nodup_keys_metaSet _ _ _ h
    · exact h

lemma foldl_sanStep_fixed (v : DefaultCommentValidator) (l : List (Str × Str))
    (hfix : ∀ kv ∈ l, sanitizeString v kv.1 = kv.1 ∧ sanitizeString v kv.2 = kv.2
      ∧ kv.1 ≠ [] ∧ kv.2 ≠ []) :
    ∀ acc, ((acc ++ l).map Prod.fst).Nodup → l.foldl (sanStep v) acc = acc ++ l := by
  induction l with
  | nil => intro acc h; simp
  | cons kv rest ih =>
    intro acc h
    obtain ⟨hk1, hk2, hne1, hne2⟩ := hfix kv (List.mem_cons_self _ _)
    have hstep : sanStep v acc kv = acc ++ [kv] := by
      rw [sanStep]
      try dsimp only
      rw [hk1, hk2, if_pos ⟨hne1, hne2⟩]
      rw [metaSet_append_of_absent]
      rw [lookupMeta_eq_none_iff]
      intro hmem
      rw [List.map_append, List.nodup_append] at h
      exact absurd (show kv.1 ∈ (kv :: rest).map Prod.fst by simp) (h.2.2 hmem)
    rw [List.foldl_cons, hstep,
      ih (fun kv2 hkv2 => hfix kv2 (List.mem_cons_of_mem _ hkv2)) (acc ++ [kv])
        (by rw [List.append_assoc]; simpa using h)]
    simp

lemma sanitizeMeta_idem (v : DefaultCommentValidator)
    (hhe : v.config.EnableHTMLEscape = false) (hsp : v.isPrint ' ' = true)
    (m : List (Str × Str))
    (hk : ∀ kv ∈ m, (∀ ch ∈ kv.1, keepChar v ch) ∧ (∀ ch ∈ kv.2, keepChar v ch)) :
    sanitizeMeta v (sanitizeMeta v m) = sanitizeMeta v m := by
  have hfix : ∀ kv ∈ sanitizeMeta v m,
      sanitizeString v kv.1 = kv.1 ∧ sanitizeString v kv.2 = kv.2
        ∧ kv.1 ≠ [] ∧ kv.2 ≠ [] := by
    intro kv hkv
    rcases mem_foldl_sanStep v m [] kv hkv with h | ⟨kv0, hkv0, heq, h1, h2⟩
    · cases h
    · obtain ⟨hka, hkb⟩ := hk kv0 hkv0
      subst heq
      exact ⟨sanitizeString_idem v hhe hsp kv0.1 hka,
        sanitizeString_idem v hhe hsp kv0.2 hkb, h1, h2⟩
  have hnd : ((sanitizeMeta v m).map Prod.fst).Nodup :=
    keys_nodup_foldl_sanStep v m [] (by simp)
  rw [show sanitizeMeta v (sanitizeMeta v m) =
      (sanitizeMeta v m).foldl (sanStep v) [] from rfl]
  rw [foldl_sanStep_fixed v _ hfix [] (by simpa using hnd)]
  rfl

lemma map_eq_self_of_forall (f : Str → Str) (l : List Str) (h : ∀ x ∈ l, f x = x) :
    l.map f = l := by
  induction l with
  | nil => rfl
  | cons x rest ih =>
    rw [List.map_cons, h x (List.mem_cons_self _ _),
      ih fun y hy => h y (List.mem_cons_of_mem _ hy)]

/-- C5 (amended): sanitization is idempotent for validators with HTML
escaping disabled, on records none of whose characters is removed by the
control-character filter (HTML escaping breaks idempotence by re-escaping
the ampersands it introduced, and a removed control character can expose
new boundary white space, so both restrictions are necessary).
`unicode.IsPrint(' ')` is a fact of the real tables supplied as a
hypothesis on the abstract `isPrint`. -/
theorem sanitize_idempotent (v : DefaultCommentValidator) (r : CommentData)
    (hhe : v.config.EnableHTMLEscape = false)
    (hsp : v.isPrint ' ' = true)
    (hln : ∀ ch ∈ r.LogicalName, keepChar v ch)
    (hds : ∀ ch ∈ r.Description, keepChar v ch)
    (htg : ∀ tag ∈ r.Tags, ∀ ch ∈ tag, keepChar v ch)
    (hmd : ∀ kv ∈ r.Metadata,
      (∀ ch ∈ kv.1, keepChar v ch) ∧ (∀ ch ∈ kv.2, keepChar v ch)) :
    Sanitize v (Sanitize v r) = Sanitize v r := by
  rw [Sanitize, Sanitize]
  try dsimp only
  congr 1
  · exact sanitizeString_idem v hhe hsp _ hln
  · exact sanitizeString_idem v hhe hsp _ hds
  · by_cases h0 : r.Tags = []
    · simp [h0]
    · rw [if_pos h0]
      by_cases h1 : List.filter (fun x => decide (x ≠ []))
          (List.map (sanitizeString v) r.Tags) = []
      · rw [h1]
        simp
      · rw [if_pos h1]
        have hel : ∀ t ∈ List.filter (fun x => decide (x ≠ []))
            (List.map (sanitizeString v) r.Tags),
            sanitizeString v t = t := by
          intro t ht
          have ht1 := List.mem_of_mem_filter ht
          obtain ⟨t0, ht0, rfl⟩ := List.mem_map.mp ht1
          exact sanitizeString_idem v hhe hsp t0 (htg t0 ht0)
        rw [map_eq_self_of_forall _ _ hel]
        exact List.filter_eq_self.mpr fun t ht => (List.mem_filter.mp ht).2
  · by_cases h0 : r.Metadata = []
    · simp [h0]
    · rw [if_pos h0]
      by_cases h1 : sanitizeMeta v r.Metadata = []
      · simp [h1]
      · rw [if_pos h1]
        exact sanitizeMeta_idem v hhe hsp r.Metadata hmd

/-- The permissive-configuration validator over the witness library (HTML
escaping disabled, ASCII `isPrint`). -/
def wV5 : DefaultCommentValidator := mkValidator wLib PermissiveValidationConfig

/-- The record of the C5 witness. -/
def wRec5 : CommentData :=
  { LogicalName := "a  b".toList, Tags := ["x".toList], Metadata := [(['k'], ['w'])] }

/-- Witness for C5 (amended): a record with inner white-space runs, a tag
and a metadata entry is a fixed point of the second sanitization. -/
theorem sanitize_idempotent_witness :
    Sanitize wV5 (Sanitize wV5 wRec5) = Sanitize wV5 wRec5 :=
  sanitize_idempotent wV5 wRec5 (by decide) (by decide)
    (show ∀ ch ∈ "a  b".toList, keepChar wV5 ch by decide)
    (show ∀ ch ∈ ([] : Str), keepChar wV5 ch by decide)
    (show ∀ tag ∈ [("x".toList : Str)], ∀ ch ∈ tag, keepChar wV5 ch by decide)
    (show ∀ kv ∈ [((['k'] : Str), (['w'] : Str))],
        (∀ ch ∈ kv.1, keepChar wV5 ch) ∧ (∀ ch ∈ kv.2, keepChar wV5 ch) by decide)

/-- The default-configuration validator over the witness library (HTML
escaping enabled). -/
def wV5h : DefaultCommentValidator := mkValidator wLib DefaultValidationConfig

/-- C5 counterexample: with HTML escaping enabled (the default
configuration), sanitizing an ampersand yields `&amp;` and sanitizing
again yields `&amp;amp;`, so `Sanitize` is not idempotent as claimed. -/
theorem sanitize_idempotent_counterexample :
    Sanitize wV5h (Sanitize wV5h { LogicalName := ['&'] }) ≠
      Sanitize wV5h { LogicalName := ['&'] } := by decide

end Tbls

